import Mathlib

/-!
Shallow embedding of groovemonkey/topologicalsort (src/topologicalsort.go,
second revision: the one containing SortedKeys / SortedValues and the
three-coloring DepthFirstSearch).

Modelling decisions, each justified against the Go source:

* Go `map[string]T` values are modelled as association lists
  (`List (String × T)`) with `mget` (lookup) and `mset` (insert-or-replace),
  which have exactly the read/write semantics of a Go map.  Go's map
  iteration order is unspecified, so every theorem about `TopologicalSort`
  quantifies over the iteration order (`order`) as a permutation of the
  registered vertices.
* A Go `*GraphNode` pointer is modelled by the `GraphNode` value it points
  to.  This is faithful because in this package a node is allocated exactly
  once per key (`RegisterVertex` refuses duplicates and never overwrites),
  is never mutated afterwards, and every pointer stored in
  `adjacencyList` / `visited` / `finished` / `topoSortedOrder` comes from
  `g.vertices`; hence pointer identity coincides with value identity for
  all nodes of one graph.
* `fmt.Errorf` messages are modelled by an error datatype with one
  constructor per format string, carrying exactly the interpolated
  arguments.  In particular the dest-missing branch of `AddEdge` carries
  `source`, because the Go code formats `source` there.
* Go recursion is unbounded; Lean needs a termination argument, so
  `depthFirstSearch` takes explicit fuel and returns `outOfFuel` when it
  runs out.  `topologicalSort` hands each DFS call `|vertices| + 1` fuel;
  the theorem for claim C7 proves this fuel is never exhausted, so the
  embedding computes exactly what the Go code computes.
* The `trace` field is ghost instrumentation: it records, in order, the
  control-flow events of the traversal (vertex entered, adjacency entry
  examined, vertex finished) and is read by no operation.  It exists only
  so resource-usage claims (each vertex entered once, each adjacency entry
  examined once) can be stated.
-/

/-- Association-list lookup: the read `m[k]` of a Go map. -/
def mget {κ α : Type} [DecidableEq κ] : List (κ × α) → κ → Option α
  | [], _ => none
  | (k', v) :: rest, k => if k' = k then some v else mget rest k

/-- Association-list insert-or-replace: the write `m[k] = v` of a Go map. -/
def mset {κ α : Type} [DecidableEq κ] : List (κ × α) → κ → α → List (κ × α)
  | [], k, v => [(k, v)]
  | (k', v') :: rest, k, v =>
    if k' = k then (k, v) :: rest else (k', v') :: mset rest k v

/-- One vertex: `type GraphNode struct { Key string; Data string }`. -/
structure GraphNode where
  key : String
  data : String
deriving DecidableEq

/-- `func NewGraphNode(key, data string) *GraphNode`. -/
def newGraphNode (key data : String) : GraphNode := ⟨key, data⟩

/-- The graph: `adjacencyList map[string][]*GraphNode`,
`vertices map[string]*GraphNode`, `topoSortedOrder []*GraphNode`. -/
structure Graph where
  adjacencyList : List (String × List GraphNode)
  vertices : List (String × GraphNode)
  topoSortedOrder : List GraphNode
deriving DecidableEq

/-- `func NewGraph() *Graph`: all three fields empty. -/
def newGraph : Graph := ⟨[], [], []⟩

/-- One constructor per `fmt.Errorf` format string in the source, carrying
exactly the interpolated arguments. -/
inductive GraphError where
  | duplicateVertex
  | unregisteredVertex (key : String)
  | duplicateEdge (source dest : String)
  | cycleDetected (source dest : String)
deriving DecidableEq

/-- `func (g *Graph) RegisterVertex(key string, data string) error`.
Returns the (possibly updated) graph and the error value. -/
def registerVertex (g : Graph) (key data : String) : Graph × Option GraphError :=
  match mget g.vertices key with
  | some _ => (g, some .duplicateVertex)
  | none =>
    (Graph.mk g.adjacencyList (mset g.vertices key (newGraphNode key data))
      g.topoSortedOrder, none)

/-- `func containsNode(nodes []*GraphNode, match *GraphNode) bool`.
Pointer comparison `n == match` becomes value equality (see header note). -/
def containsNode : List GraphNode → GraphNode → Bool
  | [], _ => false
  | n :: rest, m => if n = m then true else containsNode rest m

/-- `func (g *Graph) AddEdge(source, dest string) error`.  The dest-missing
branch reports `source` — faithful to the Go code, which formats `source`
in both unregistered-vertex branches. -/
def addEdge (g : Graph) (source dest : String) : Graph × Option GraphError :=
  match mget g.vertices source with
  | none => (g, some (.unregisteredVertex source))
  | some _ =>
    match mget g.vertices dest with
    | none => (g, some (.unregisteredVertex source))
    | some destNode =>
      if containsNode ((mget g.adjacencyList source).getD []) destNode then
        (g, some (.duplicateEdge source dest))
      else
        (Graph.mk
          (mset g.adjacencyList source
            (((mget g.adjacencyList source).getD []) ++ [destNode]))
          g.vertices g.topoSortedOrder, none)

/-- `g.adjacencyList[node.Key]`: a read of a missing key yields the zero
value, the empty slice. -/
def neighborsOf (g : Graph) (key : String) : List GraphNode :=
  (mget g.adjacencyList key).getD []

/-- Ghost control-flow events of one traversal: a vertex is entered, an
adjacency entry (one iteration of the neighbor loop) is examined, a vertex
is finished. -/
inductive Ev where
  | enter (key : String)
  | exam (source dest : String)
  | fin (key : String)
deriving DecidableEq

/-- Outcome of `DepthFirstSearch`: the returned `(visited, finished)` maps
plus the `g.topoSortedOrder` contents (mutated through the graph pointer,
so it survives the error return) and the ghost trace. `outOfFuel` is the
Lean-side fuel exhaustion, proven unreachable. -/
inductive DfsOut where
  | ok (visited finished : List (GraphNode × Bool)) (topo : List GraphNode) (tr : List Ev)
  | cycleErr (source dest : String) (topo : List GraphNode) (tr : List Ev)
  | outOfFuel
deriving DecidableEq

/-- The neighbor loop of `DepthFirstSearch`, abstracted over the recursive
call `dfsRec`.  For each neighbor: a back edge (`visited[neighbor]` true)
fails with the two keys on the closing edge; a finished neighbor is
skipped; otherwise recurse, propagating any error. -/
def dfsNeighbors (dfsRec : GraphNode → List (GraphNode × Bool) → List (GraphNode × Bool) →
    List GraphNode → List Ev → DfsOut) (node : GraphNode) :
    List GraphNode → List (GraphNode × Bool) → List (GraphNode × Bool) →
    List GraphNode → List Ev → DfsOut
  | [], visited, finished, topo, tr => .ok visited finished topo tr
  | nb :: rest, visited, finished, topo, tr =>
    if mget visited nb = some true then
      .cycleErr node.key nb.key topo (tr ++ [.exam node.key nb.key])
    else if (mget finished nb).isSome then
      dfsNeighbors dfsRec node rest visited finished topo (tr ++ [.exam node.key nb.key])
    else
      match dfsRec nb visited finished topo (tr ++ [.exam node.key nb.key]) with
      | .ok v2 f2 t2 e2 => dfsNeighbors dfsRec node rest v2 f2 t2 e2
      | r => r

/-- `func (g *Graph) DepthFirstSearch(node, visited, finished)`:
mark `visited[node] = true`, run the neighbor loop, then
`visited[node] = false`, `finished[node] = true`, and append `node` to
`g.topoSortedOrder`. -/
def depthFirstSearch (g : Graph) :
    Nat → GraphNode → List (GraphNode × Bool) → List (GraphNode × Bool) →
    List GraphNode → List Ev → DfsOut
  | 0, _, _, _, _, _ => .outOfFuel
  | fuel + 1, node, visited, finished, topo, tr =>
    match dfsNeighbors (depthFirstSearch g fuel) node (neighborsOf g node.key)
        (mset visited node true) finished topo (tr ++ [.enter node.key]) with
    | .ok v2 f2 t2 e2 =>
      .ok (mset v2 node false) (mset f2 node true) (t2 ++ [node]) (e2 ++ [.fin node.key])
    | r => r

/-- The topological order accumulated in `g.topoSortedOrder` at the moment a
DFS call returned, when it did return. -/
def outTopo : DfsOut → Option (List GraphNode)
  | .ok _ _ t _ => some t
  | .cycleErr _ _ t _ => some t
  | .outOfFuel => none

/-- `func (g *Graph) SortedKeys() []string`. -/
def sortedKeys (g : Graph) : List String :=
  g.topoSortedOrder.map (fun n => n.key)

/-- `func (g *Graph) SortedValues() []string`. -/
def sortedValues (g : Graph) : List String :=
  g.topoSortedOrder.map (fun n => n.data)

/-- Result of one `TopologicalSort` call: the graph as mutated by the call,
the returned string slice, the returned error, and the ghost trace. -/
structure SortResult where
  graph : Graph
  keys : List String
  err : Option GraphError
  trace : List Ev
deriving DecidableEq

/-- The driver loop of `TopologicalSort` over the vertex map: skip a vertex
present in `visited` or `finished`, otherwise DFS from it; a cycle error
returns `([]string{}, err)` immediately (with `g.topoSortedOrder` keeping
whatever the aborted traversal appended); on completion return
`g.SortedKeys()`. `none` is Lean-side fuel exhaustion, proven unreachable. -/
def sortLoop (g : Graph) :
    List GraphNode → List (GraphNode × Bool) → List (GraphNode × Bool) →
    List GraphNode → List Ev → Option SortResult
  | [], _, _, topo, tr =>
    some ⟨Graph.mk g.adjacencyList g.vertices topo,
      sortedKeys (Graph.mk g.adjacencyList g.vertices topo), none, tr⟩
  | n :: rest, visited, finished, topo, tr =>
    if (mget visited n).isSome || (mget finished n).isSome then
      sortLoop g rest visited finished topo tr
    else
      match depthFirstSearch g (g.vertices.length + 1) n visited finished topo tr with
      | .ok v2 f2 t2 e2 => sortLoop g rest v2 f2 t2 e2
      | .cycleErr s d t2 e2 =>
        some ⟨Graph.mk g.adjacencyList g.vertices t2, [], some (.cycleDetected s d), e2⟩
      | .outOfFuel => none

/-- `func (g *Graph) TopologicalSort() ([]string, error)`, parametrized by
the unspecified iteration order of `range g.vertices`. -/
def topologicalSort (g : Graph) (order : List GraphNode) : Option SortResult :=
  sortLoop g order [] [] g.topoSortedOrder []

/-- The registered nodes, i.e. the values of `g.vertices`. -/
def regNodes (g : Graph) : List GraphNode := g.vertices.map Prod.snd

/-- The registered keys, i.e. the keys of `g.vertices`. -/
def vertexKeys (g : Graph) : List String := g.vertices.map Prod.fst

/-- There is an edge from key `s` to key `d` in the adjacency relation. -/
def isEdgeK (g : Graph) (s d : String) : Prop :=
  ∃ nb ∈ neighborsOf g s, nb.key = d

instance (g : Graph) (s d : String) : Decidable (isEdgeK g s d) := by
  unfold isEdgeK; infer_instance

/-- Reflexive-transitive closure of the edge relation on keys. -/
inductive reachK (g : Graph) : String → String → Prop
  | refl (a : String) : reachK g a a
  | step {a b c : String} : isEdgeK g a b → reachK g b c → reachK g a c

/-- The edge relation contains a directed cycle: some edge closes a path
back to its source. -/
def hasCycle (g : Graph) : Prop :=
  ∃ s d, isEdgeK g s d ∧ reachK g d s

/-- Structural invariants of every graph reachable through `newGraph`,
`registerVertex` and `addEdge`: each stored node carries its map key, keys
are unique, adjacency endpoints are registered, and one source's adjacency
slice never repeats a destination. -/
def WF (g : Graph) : Prop :=
  (∀ p ∈ g.vertices, (Prod.snd p).key = Prod.fst p) ∧
  (g.vertices.map Prod.fst).Nodup ∧
  (∀ q ∈ g.adjacencyList, ∃ p ∈ g.vertices, Prod.fst p = Prod.fst q) ∧
  (∀ q ∈ g.adjacencyList, ∀ nb ∈ Prod.snd q, nb ∈ regNodes g) ∧
  (∀ q ∈ g.adjacencyList, ((Prod.snd q).map GraphNode.key).Nodup)

instance (g : Graph) : Decidable (WF g) := by
  unfold WF; infer_instance


/-- Fuel measure: how many registered vertices are not currently in
progress.  The recursion depth of one DFS call is bounded by it. -/
def freeCnt (g : Graph) (v : List (GraphNode × Bool)) : Nat :=
  (regNodes g).countP (fun x => decide (mget v x ≠ some true))

/-- Invariant tying together the traversal state threaded through one sort
call: `visited` map `v`, `finished` map `f`, accumulated order `t`. -/
structure INVP (g : Graph) (v f : List (GraphNode × Bool)) (t : List GraphNode) : Prop where
  fin_mem : ∀ x, (mget f x).isSome ↔ x ∈ t
  nodup : t.Nodup
  t_reg : ∀ x ∈ t, x ∈ regNodes g
  ord : ∀ s ∈ t, ∀ d ∈ neighborsOf g s.key, d ∈ t ∧ t.indexOf d < t.indexOf s
  dom_iff : ∀ x, (mget v x).isSome ↔ ((mget f x).isSome ∨ mget v x = some true)
  prog_reg : ∀ x, mget v x = some true → x ∈ regNodes g

/-- Invariant tying the ghost trace to the traversal state. -/
structure TRP (g : Graph) (tr : List Ev) (v f : List (GraphNode × Bool)) : Prop where
  enter_cnt : ∀ x ∈ regNodes g, tr.count (.enter x.key) = if (mget v x).isSome then 1 else 0
  fin_cnt : ∀ x ∈ regNodes g, tr.count (.fin x.key) = if (mget f x).isSome then 1 else 0
  exam_le : ∀ x ∈ regNodes g, ∀ d, tr.count (.exam x.key d) ≤ 1
  exam_zero : ∀ x ∈ regNodes g, ¬(mget v x).isSome → ∀ d, tr.count (.exam x.key d) = 0
  unreg : ∀ k, (∀ x ∈ regNodes g, x.key ≠ k) →
    tr.count (.enter k) = 0 ∧ tr.count (.fin k) = 0 ∧ ∀ d, tr.count (.exam k d) = 0

/-- The resource bound of claim C7: no vertex entered or finished twice, no
adjacency entry examined twice. -/
def CNT (tr : List Ev) : Prop :=
  (∀ k, tr.count (.enter k) ≤ 1) ∧ (∀ k, tr.count (.fin k) ≤ 1) ∧
  (∀ s d, tr.count (.exam s d) ≤ 1)

/-- Postcondition of a successful `depthFirstSearch` call. -/
structure OkPost (g : Graph) (node : GraphNode) (v f : List (GraphNode × Bool))
    (t : List GraphNode) (tr : List Ev) (v2 f2 : List (GraphNode × Bool))
    (t2 : List GraphNode) (e2 : List Ev) : Prop where
  inv : INVP g v2 f2 t2
  trp : TRP g e2 v2 f2
  prog_pres : ∀ x, mget v2 x = some true ↔ mget v x = some true
  dom_mono : ∀ x, (mget v x).isSome → (mget v2 x).isSome
  fin_mono : ∀ x, (mget f x).isSome → (mget f2 x).isSome
  prog_fin_stable : ∀ x, mget v x = some true → ((mget f2 x).isSome ↔ (mget f x).isSome)
  t_ext : ∃ zs, t2 = t ++ zs
  node_fin : (mget f2 node).isSome
  exam_stable : ∀ s, (∀ x ∈ regNodes g, x.key = s → (mget v x).isSome) →
    ∀ d, e2.count (.exam s d) = tr.count (.exam s d)

/-- Postcondition of a successful run of the neighbor loop of `node`. -/
structure LoopOkPost (g : Graph) (node : GraphNode) (ns : List GraphNode)
    (v f : List (GraphNode × Bool)) (t : List GraphNode) (tr : List Ev)
    (v2 f2 : List (GraphNode × Bool)) (t2 : List GraphNode) (e2 : List Ev) : Prop where
  inv : INVP g v2 f2 t2
  trp : TRP g e2 v2 f2
  prog_pres : ∀ x, mget v2 x = some true ↔ mget v x = some true
  dom_mono : ∀ x, (mget v x).isSome → (mget v2 x).isSome
  fin_mono : ∀ x, (mget f x).isSome → (mget f2 x).isSome
  prog_fin_stable : ∀ x, mget v x = some true → ((mget f2 x).isSome ↔ (mget f x).isSome)
  t_ext : ∃ zs, t2 = t ++ zs
  ns_fin : ∀ nb ∈ ns, (mget f2 nb).isSome
  exam_stable : ∀ s, s ≠ node.key → (∀ x ∈ regNodes g, x.key = s → (mget v x).isSome) →
    ∀ d, e2.count (.exam s d) = tr.count (.exam s d)

/-- Postcondition of a traversal that aborted with a cycle error: the
reported pair really is the closing edge of a cycle (an edge whose target
reaches back to its source), the appended order entries are registered, and
the trace still satisfies the resource bound. -/
structure ErrPost (g : Graph) (t : List GraphNode) (s d : String)
    (t2 : List GraphNode) (e2 : List Ev) : Prop where
  t_ext : ∃ zs, t2 = t ++ zs
  t_reg : ∀ x ∈ t2, x ∈ t ∨ x ∈ regNodes g
  cnt : CNT e2
  edge : isEdgeK g s d
  back : reachK g d s

/-- Postcondition of a completed (error-free) `sortLoop` run. -/
structure SortOkPost (g : Graph) (order t : List GraphNode) (res : SortResult) : Prop where
  adj_eq : res.graph.adjacencyList = g.adjacencyList
  vert_eq : res.graph.vertices = g.vertices
  err_none : res.err = none
  keys_eq : res.keys = res.graph.topoSortedOrder.map GraphNode.key
  nodup : res.graph.topoSortedOrder.Nodup
  t_reg : ∀ x ∈ res.graph.topoSortedOrder, x ∈ regNodes g
  ord : ∀ s ∈ res.graph.topoSortedOrder, ∀ d ∈ neighborsOf g s.key,
    d ∈ res.graph.topoSortedOrder ∧
    res.graph.topoSortedOrder.indexOf d < res.graph.topoSortedOrder.indexOf s
  t_ext : ∃ zs, res.graph.topoSortedOrder = t ++ zs
  complete : ∀ x ∈ order, x ∈ res.graph.topoSortedOrder
  cnt : CNT res.trace

/-- Postcondition of a `sortLoop` run aborted by a cycle error. -/
structure SortErrPost (g : Graph) (t : List GraphNode) (res : SortResult) : Prop where
  adj_eq : res.graph.adjacencyList = g.adjacencyList
  vert_eq : res.graph.vertices = g.vertices
  err_some : ∃ s d, res.err = some (.cycleDetected s d) ∧ isEdgeK g s d ∧ reachK g d s
  keys_nil : res.keys = []
  t_reg : ∀ x ∈ res.graph.topoSortedOrder, x ∈ t ∨ x ∈ regNodes g
  cnt : CNT res.trace

/-! ### Concrete graphs, each built by the registration and edge operations -/

/-- One vertex `a`, no edges. -/
def gSingle : Graph := (registerVertex newGraph "a" "da").1

/-- Vertices `a`, `b`; edge `a → b`. -/
def gPair : Graph :=
  (addEdge (registerVertex (registerVertex newGraph "a" "da").1 "b" "db").1 "a" "b").1

/-- Vertices `a`, `b`; edge `b → a` (`b` depends on `a`); acyclic. -/
def gDep : Graph :=
  (addEdge (registerVertex (registerVertex newGraph "a" "da").1 "b" "db").1 "b" "a").1

/-- Vertex `c` with the self-loop `c → c`. -/
def gSelf : Graph := (addEdge (registerVertex newGraph "c" "dc").1 "c" "c").1

/-- Vertices `x`, `c`, `d`; edges `c → x`, `c → d`, `d → c`: a cyclic graph
in which `x` is finished before any traversal can meet the cycle. -/
def gAbort : Graph :=
  (addEdge (addEdge (addEdge (registerVertex (registerVertex (registerVertex
    newGraph "x" "dx").1 "c" "dc").1 "d" "dd").1 "c" "x").1 "c" "d").1 "d" "c").1

/-- Vertices `a`, `b`, `c`; edges `a → b`, `b → a`: a two-cycle away from
`c`. -/
def gTwoCycle : Graph :=
  (addEdge (addEdge (registerVertex (registerVertex (registerVertex
    newGraph "a" "da").1 "b" "db").1 "c" "dc").1 "a" "b").1 "b" "a").1

/-- The five-vertex chain of the test suite: edges `two → one`,
`three → two`, `four → three`, `five → four`. -/
def gChain5 : Graph :=
  (addEdge (addEdge (addEdge (addEdge
    (registerVertex (registerVertex (registerVertex (registerVertex (registerVertex
      newGraph "one" "d1").1 "two" "d2").1 "three" "d3").1 "four" "d4").1 "five" "d5").1
    "two" "one").1 "three" "two").1 "four" "three").1 "five" "four").1

/-- Rank of a key in the five-vertex chain, used to show the chain acyclic. -/
def chainRank (k : String) : Nat :=
  ["one", "two", "three", "four", "five"].indexOf k

/-- Placeholder result used only as the default of `Option.getD`. -/
def defaultRes : SortResult := ⟨newGraph, [], none, []⟩

/-- The result of sorting the one-vertex graph. -/
def resSingle : SortResult := (topologicalSort gSingle (regNodes gSingle)).getD defaultRes

/-- The result of sorting the self-loop graph. -/
def resSelf : SortResult := (topologicalSort gSelf (regNodes gSelf)).getD defaultRes

/-- The result of sorting the five-vertex chain in registration order. -/
def resChain5 : SortResult := (topologicalSort gChain5 (regNodes gChain5)).getD defaultRes

/-- The one-vertex graph after adding the self-loop `a → a`. -/
def gSingleLoop : Graph := (addEdge gSingle "a" "a").1

/-- The result of sorting the one-vertex graph with its self-loop. -/
def resSingleLoop : SortResult :=
  (topologicalSort gSingleLoop (regNodes gSingleLoop)).getD defaultRes

/-! ### Association-map lemmas -/

theorem mget_mset_self {κ α : Type} [DecidableEq κ] (m : List (κ × α)) (k : κ) (v : α) :
    mget (mset m k v) k = some v := by
  induction m with
  | nil => simp [mget, mset]
  | cons p rest ih =>
    obtain ⟨k', v'⟩ := p
    by_cases h : k' = k
    · simp [mget, mset, h]
    · simp [mget, mset, h, ih]

theorem mget_mset_ne {κ α : Type} [DecidableEq κ] (m : List (κ × α)) (k k' : κ) (v : α)
    (h : k' ≠ k) : mget (mset m k v) k' = mget m k' := by
  induction m with
  | nil => simp [mget, mset, if_neg (Ne.symm h)]
  | cons p rest ih =>
    obtain ⟨k0, v0⟩ := p
    by_cases h0 : k0 = k
    · subst h0
      have hne : ¬(k0 = k') := Ne.symm h
      simp [mget, mset, if_pos rfl, hne]
    · simp only [mset, if_neg h0]
      by_cases h1 : k0 = k'
      · simp [mget, h1]
      · simp [mget, h1, ih]

theorem mget_mem {κ α : Type} [DecidableEq κ] {m : List (κ × α)} {k : κ} {v : α}
    (h : mget m k = some v) : (k, v) ∈ m := by
  induction m with
  | nil => simp [mget] at h
  | cons p rest ih =>
    obtain ⟨k', v'⟩ := p
    by_cases hk : k' = k
    · subst hk
      simp [mget] at h
      simp [h]
    · simp [mget, hk] at h
      exact List.mem_cons_of_mem _ (ih h)

theorem mget_isSome_iff {κ α : Type} [DecidableEq κ] (m : List (κ × α)) (k : κ) :
    (mget m k).isSome ↔ k ∈ m.map Prod.fst := by
  induction m with
  | nil => simp [mget]
  | cons p rest ih =>
    obtain ⟨k', v'⟩ := p
    by_cases hk : k' = k
    · subst hk; simp [mget]
    · have hk' : ¬(k = k') := Ne.symm hk
      simp [mget, hk, ih, hk']

theorem mem_mget {κ α : Type} [DecidableEq κ] {m : List (κ × α)} {k : κ} {v : α}
    (nd : (m.map Prod.fst).Nodup) (h : (k, v) ∈ m) : mget m k = some v := by
  induction m with
  | nil => simp at h
  | cons p rest ih =>
    obtain ⟨k', v'⟩ := p
    simp only [List.map_cons, List.nodup_cons] at nd
    rcases List.mem_cons.mp h with h1 | h1
    · obtain ⟨hk, hv⟩ := Prod.mk.injEq .. ▸ h1
      simp [mget, hk.symm, hv]
    · have hk : k' ≠ k := by
        intro he
        exact nd.1 (he ▸ (List.mem_map.mpr ⟨(k, v), h1, rfl⟩))
      simp [mget, hk, ih nd.2 h1]

theorem mem_mset {κ α : Type} [DecidableEq κ] {m : List (κ × α)} {k : κ} {v : α} {p : κ × α}
    (h : p ∈ mset m k v) : p = (k, v) ∨ p ∈ m := by
  induction m with
  | nil => simp [mset] at h; exact Or.inl h
  | cons q rest ih =>
    obtain ⟨k', v'⟩ := q
    by_cases hk : k' = k
    · subst hk
      simp only [mset, if_pos rfl] at h
      rcases List.mem_cons.mp h with h1 | h1
      · exact Or.inl h1
      · exact Or.inr (List.mem_cons_of_mem _ h1)
    · simp only [mset, if_neg hk] at h
      rcases List.mem_cons.mp h with h1 | h1
      · exact Or.inr (h1 ▸ List.mem_cons_self _ _)
      · rcases ih h1 with h2 | h2
        · exact Or.inl h2
        · exact Or.inr (List.mem_cons_of_mem _ h2)

theorem mset_not_mem_eq_append {κ α : Type} [DecidableEq κ] {m : List (κ × α)} {k : κ} (v : α)
    (h : k ∉ m.map Prod.fst) : mset m k v = m ++ [(k, v)] := by
  induction m with
  | nil => simp [mset]
  | cons q rest ih =>
    obtain ⟨k', v'⟩ := q
    simp only [List.map_cons, List.mem_cons] at h
    push_neg at h
    have hk : ¬(k' = k) := fun he => h.1 he.symm
    simp [mset, hk, ih h.2]

theorem mset_map_fst_not_mem {κ α : Type} [DecidableEq κ] {m : List (κ × α)} {k : κ} (v : α)
    (h : k ∉ m.map Prod.fst) : (mset m k v).map Prod.fst = m.map Prod.fst ++ [k] := by
  induction m with
  | nil => simp [mset]
  | cons q rest ih =>
    obtain ⟨k', v'⟩ := q
    simp only [List.map_cons, List.mem_cons] at h
    push_neg at h
    have hk : ¬(k' = k) := fun he => h.1 he.symm
    simp [mset, hk, ih h.2]

theorem mset_map_snd_not_mem {κ α : Type} [DecidableEq κ] {m : List (κ × α)} {k : κ} (v : α)
    (h : k ∉ m.map Prod.fst) : (mset m k v).map Prod.snd = m.map Prod.snd ++ [v] := by
  induction m with
  | nil => simp [mset]
  | cons q rest ih =>
    obtain ⟨k', v'⟩ := q
    simp only [List.map_cons, List.mem_cons] at h
    push_neg at h
    have hk : ¬(k' = k) := fun he => h.1 he.symm
    simp [mset, hk, ih h.2]

theorem mset_map_fst_mem {κ α : Type} [DecidableEq κ] {m : List (κ × α)} {k : κ} (v : α)
    (h : k ∈ m.map Prod.fst) : (mset m k v).map Prod.fst = m.map Prod.fst := by
  induction m with
  | nil => simp at h
  | cons q rest ih =>
    obtain ⟨k', v'⟩ := q
    by_cases hk : k' = k
    · subst hk; simp [mset]
    · simp only [List.map_cons, List.mem_cons] at h
      rcases h with h | h
      · exact absurd h.symm hk
      · simp [mset, hk, ih h]

/-! ### Facts derived from well-formedness -/

theorem WF.reg_keys {g : Graph} (h : WF g) :
    (regNodes g).map GraphNode.key = vertexKeys g := by
  obtain ⟨h1, _, _, _, _⟩ := h
  unfold regNodes vertexKeys
  rw [List.map_map]
  exact List.map_congr_left h1

theorem WF.regKeys_nodup {g : Graph} (h : WF g) :
    ((regNodes g).map GraphNode.key).Nodup := by
  rw [h.reg_keys]; exact h.2.1

theorem WF.reg_nodup {g : Graph} (h : WF g) : (regNodes g).Nodup :=
  (h.regKeys_nodup).of_map

theorem WF.key_inj {g : Graph} (h : WF g) {x y : GraphNode}
    (hx : x ∈ regNodes g) (hy : y ∈ regNodes g) (hk : x.key = y.key) : x = y :=
  List.inj_on_of_nodup_map h.regKeys_nodup hx hy hk

theorem WF.mget_of_reg {g : Graph} (h : WF g) {x : GraphNode} (hx : x ∈ regNodes g) :
    mget g.vertices x.key = some x := by
  obtain ⟨p, hp, hsnd⟩ := List.mem_map.mp hx
  have hkey : x.key = p.1 := by rw [← hsnd]; exact h.1 p hp
  rw [hkey]
  exact mem_mget h.2.1 (by rwa [← Prod.mk.eta (p := p), hsnd] at hp)

theorem WF.neighbors_reg {g : Graph} (h : WF g) (k : String) :
    ∀ nb ∈ neighborsOf g k, nb ∈ regNodes g := by
  intro nb hnb
  unfold neighborsOf at hnb
  cases hm : mget g.adjacencyList k with
  | none => rw [hm] at hnb; simp at hnb
  | some ns =>
    rw [hm] at hnb
    simp at hnb
    exact h.2.2.2.1 (k, ns) (mget_mem hm) nb hnb

theorem WF.neighbors_key_nodup {g : Graph} (h : WF g) (k : String) :
    ((neighborsOf g k).map GraphNode.key).Nodup := by
  unfold neighborsOf
  cases hm : mget g.adjacencyList k with
  | none => simp
  | some ns =>
    simpa using h.2.2.2.2 (k, ns) (mget_mem hm)

theorem WF.edge_src_reg {g : Graph} (h : WF g) {s d : String} (he : isEdgeK g s d) :
    ∃ x ∈ regNodes g, x.key = s := by
  obtain ⟨nb, hnb, _⟩ := he
  unfold neighborsOf at hnb
  cases hm : mget g.adjacencyList s with
  | none => rw [hm] at hnb; simp at hnb
  | some ns =>
    obtain ⟨p, hp, hfst⟩ := h.2.2.1 (s, ns) (mget_mem hm)
    refine ⟨p.2, List.mem_map.mpr ⟨p, hp, rfl⟩, ?_⟩
    rw [h.1 p hp]
    exact hfst

theorem WF.edge_dst_reg {g : Graph} (h : WF g) {s d : String} (he : isEdgeK g s d) :
    ∃ x ∈ regNodes g, x.key = d := by
  obtain ⟨nb, hnb, hkey⟩ := he
  exact ⟨nb, h.neighbors_reg s nb hnb, hkey⟩

/-! ### The operations preserve well-formedness and are built-graph safe -/

theorem wf_newGraph : WF newGraph := by
  refine ⟨?_, ?_, ?_, ?_, ?_⟩ <;> simp [newGraph]

theorem registerVertex_topo (g : Graph) (k d : String) :
    (registerVertex g k d).1.topoSortedOrder = g.topoSortedOrder := by
  unfold registerVertex
  cases mget g.vertices k <;> rfl

theorem registerVertex_adj (g : Graph) (k d : String) :
    (registerVertex g k d).1.adjacencyList = g.adjacencyList := by
  unfold registerVertex
  cases mget g.vertices k <;> rfl

theorem registerVertex_wf {g : Graph} (h : WF g) (k d : String) :
    WF (registerVertex g k d).1 := by
  unfold registerVertex
  cases hm : mget g.vertices k with
  | some _ => exact h
  | none =>
    have hk : k ∉ g.vertices.map Prod.fst := by
      intro hmem
      have := (mget_isSome_iff g.vertices k).mpr hmem
      rw [hm] at this
      simp at this
    obtain ⟨h1, h2, h3, h4, h5⟩ := h
    have hreg : regNodes (Graph.mk g.adjacencyList
        (mset g.vertices k (newGraphNode k d)) g.topoSortedOrder) =
        regNodes g ++ [newGraphNode k d] := by
      unfold regNodes
      exact mset_map_snd_not_mem _ hk
    refine ⟨?_, ?_, ?_, ?_, ?_⟩
    · intro p hp
      rcases mem_mset hp with hp1 | hp1
      · subst hp1; rfl
      · exact h1 p hp1
    · show ((mset g.vertices k (newGraphNode k d)).map Prod.fst).Nodup
      rw [mset_map_fst_not_mem _ hk]
      simp [List.nodup_append, h2, hk]
    · intro q hq
      obtain ⟨p, hp, hfst⟩ := h3 q hq
      refine ⟨p, ?_, hfst⟩
      rw [mset_not_mem_eq_append _ hk]
      exact List.mem_append_left _ hp
    · intro q hq nb hnb
      rw [hreg]
      exact List.mem_append_left _ (h4 q hq nb hnb)
    · exact h5

theorem addEdge_topo (g : Graph) (s d : String) :
    (addEdge g s d).1.topoSortedOrder = g.topoSortedOrder := by
  unfold addEdge
  cases mget g.vertices s with
  | none => rfl
  | some _ =>
    cases mget g.vertices d with
    | none => rfl
    | some destNode =>
      by_cases hc : containsNode ((mget g.adjacencyList s).getD []) destNode <;> simp [hc]

theorem addEdge_vertices (g : Graph) (s d : String) :
    (addEdge g s d).1.vertices = g.vertices := by
  unfold addEdge
  cases mget g.vertices s with
  | none => rfl
  | some _ =>
    cases mget g.vertices d with
    | none => rfl
    | some destNode =>
      by_cases hc : containsNode ((mget g.adjacencyList s).getD []) destNode <;> simp [hc]

theorem containsNode_iff (nodes : List GraphNode) (m : GraphNode) :
    containsNode nodes m = true ↔ m ∈ nodes := by
  induction nodes with
  | nil => simp [containsNode]
  | cons n rest ih =>
    by_cases h : n = m
    · simp [containsNode, h]
    · have h' : ¬(m = n) := fun hh => h hh.symm
      simp [containsNode, h, ih, h']

theorem addEdge_wf {g : Graph} (h : WF g) (s d : String) : WF (addEdge g s d).1 := by
  unfold addEdge
  cases hs : mget g.vertices s with
  | none => exact h
  | some srcNode =>
    cases hd : mget g.vertices d with
    | none => exact h
    | some destNode =>
      by_cases hc : containsNode ((mget g.adjacencyList s).getD []) destNode
      · simp only [hc, if_true]; exact h
      · simp only [hc, if_false, Bool.false_eq_true]
        obtain ⟨h1, h2, h3, h4, h5⟩ := h
        have hdreg : destNode ∈ regNodes g :=
          List.mem_map.mpr ⟨(d, destNode), mget_mem hd, rfl⟩
        have hdkey : destNode.key = d := h1 (d, destNode) (mget_mem hd)
        refine ⟨h1, h2, ?_, ?_, ?_⟩
        · intro q hq
          rcases mem_mset hq with hq1 | hq1
          · exact ⟨(s, srcNode), mget_mem hs, by rw [hq1]⟩
          · exact h3 q hq1
        · intro q hq nb hnb
          rcases mem_mset hq with hq1 | hq1
          · subst hq1
            simp only at hnb
            rcases List.mem_append.mp hnb with hnb1 | hnb1
            · cases hm : mget g.adjacencyList s with
              | none => rw [hm] at hnb1; simp at hnb1
              | some ns =>
                rw [hm] at hnb1
                simp only [Option.getD_some] at hnb1
                exact h4 (s, ns) (mget_mem hm) nb hnb1
            · simp at hnb1
              exact hnb1 ▸ hdreg
          · exact h4 q hq1 nb hnb
        · intro q hq
          rcases mem_mset hq with hq1 | hq1
          · subst hq1
            simp only [List.map_append]
            rw [List.nodup_append]
            refine ⟨?_, by simp, ?_⟩
            · cases hm : mget g.adjacencyList s with
              | none => simp [hm]
              | some ns =>
                simpa [hm] using h5 (s, ns) (mget_mem hm)
            · intro a ha
              simp only [List.map_cons, List.map_nil, List.mem_singleton]
              intro hb
              subst hb
              obtain ⟨x, hx, hxkey⟩ := List.mem_map.mp ha
              have hxreg : x ∈ regNodes g := by
                cases hm : mget g.adjacencyList s with
                | none => rw [hm] at hx; simp at hx
                | some ns =>
                  rw [hm] at hx
                  simp only [Option.getD_some] at hx
                  exact h4 (s, ns) (mget_mem hm) x hx
              have hwf : WF g := ⟨h1, h2, h3, h4, h5⟩
              have : x = destNode := hwf.key_inj hxreg hdreg (by rw [hxkey, hdkey])
              subst this
              exact hc ((containsNode_iff _ _).mpr hx)
          · exact h5 q hq1


/-! ### Reachability, counting and index helpers -/

theorem reachK_snoc {g : Graph} {a b c : String} (h : reachK g a b) (he : isEdgeK g b c) :
    reachK g a c := by
  induction h with
  | refl x => exact reachK.step he (reachK.refl c)
  | step hab _ ih => exact reachK.step hab (ih he)

theorem cnt_app_self (tr : List Ev) (e : Ev) : (tr ++ [e]).count e = tr.count e + 1 := by
  simp

theorem cnt_app_ne (tr : List Ev) {e e' : Ev} (h : e' ≠ e) :
    (tr ++ [e']).count e = tr.count e := by
  simp [List.count_singleton', h]

theorem countP_pred_congr {l : List GraphNode} {p q : GraphNode → Bool}
    (h : ∀ x ∈ l, p x = q x) : l.countP p = l.countP q := by
  induction l with
  | nil => rfl
  | cons a rest ih =>
    rw [List.countP_cons, List.countP_cons, h a (List.mem_cons_self a rest),
      ih (fun x hx => h x (List.mem_cons_of_mem _ hx))]

theorem countP_drop_one {l : List GraphNode} {p q : GraphNode → Bool} {x : GraphNode}
    (nd : l.Nodup) (hx : x ∈ l) (hp : p x = true) (hq : q x = false)
    (hrest : ∀ y ∈ l, y ≠ x → q y = p y) : l.countP q + 1 = l.countP p := by
  induction l with
  | nil => simp at hx
  | cons a rest ih =>
    rw [List.nodup_cons] at nd
    rcases List.mem_cons.mp hx with h1 | h1
    · subst h1
      have : ∀ y ∈ rest, q y = p y := fun y hy =>
        hrest y (List.mem_cons_of_mem _ hy) (fun he => nd.1 (he ▸ hy))
      rw [List.countP_cons, List.countP_cons, hp, hq, countP_pred_congr this]
      simp
    · have ha : a ≠ x := fun he => nd.1 (he ▸ h1)
      rw [List.countP_cons, List.countP_cons, hrest a (List.mem_cons_self a rest) ha]
      have hih := ih nd.2 h1 (fun y hy hne => hrest y (List.mem_cons_of_mem _ hy) hne)
      omega

theorem keymap_nodup {g : Graph} (hwf : WF g) {t : List GraphNode}
    (nd : t.Nodup) (hreg : ∀ x ∈ t, x ∈ regNodes g) :
    (t.map GraphNode.key).Nodup :=
  nd.map_on (fun x hx y hy hk => hwf.key_inj (hreg x hx) (hreg y hy) hk)

theorem indexOf_map_key {t : List GraphNode} {d : GraphNode}
    (nd : (t.map GraphNode.key).Nodup) (hd : d ∈ t) :
    (t.map GraphNode.key).indexOf d.key = t.indexOf d := by
  induction t with
  | nil => simp at hd
  | cons a rest ih =>
    simp only [List.map_cons, List.nodup_cons] at nd
    by_cases ha : a = d
    · subst ha
      simp [List.indexOf_cons_self]
    · have hk : a.key ≠ d.key := by
        intro he
        rcases List.mem_cons.mp hd with h1 | h1
        · exact ha h1.symm
        · exact nd.1 (he ▸ List.mem_map.mpr ⟨d, h1, rfl⟩)
      rcases List.mem_cons.mp hd with h1 | h1
      · exact absurd h1.symm ha
      · simp only [List.map_cons]
        rw [List.indexOf_cons_ne _ hk, List.indexOf_cons_ne _ (fun he => ha he),
          ih nd.2 h1]

/-! ### Trace-invariant helpers -/

theorem TRP.cnt {g : Graph} {tr : List Ev} {v f : List (GraphNode × Bool)}
    (h : TRP g tr v f) : CNT tr := by
  refine ⟨?_, ?_, ?_⟩
  · intro k
    by_cases he : ∃ x ∈ regNodes g, x.key = k
    · obtain ⟨x, hx, hk⟩ := he
      rw [← hk, h.enter_cnt x hx]
      split <;> omega
    · push_neg at he
      rw [(h.unreg k he).1]
      omega
  · intro k
    by_cases he : ∃ x ∈ regNodes g, x.key = k
    · obtain ⟨x, hx, hk⟩ := he
      rw [← hk, h.fin_cnt x hx]
      split <;> omega
    · push_neg at he
      rw [(h.unreg k he).2.1]
      omega
  · intro s d
    by_cases he : ∃ x ∈ regNodes g, x.key = s
    · obtain ⟨x, hx, hk⟩ := he
      rw [← hk]
      exact h.exam_le x hx d
    · push_neg at he
      rw [(h.unreg s he).2.2 d]
      omega

theorem trp_append_exam {g : Graph} (hwf : WF g) {tr : List Ev}
    {v f : List (GraphNode × Bool)} (htrp : TRP g tr v f) {node : GraphNode} {dk : String}
    (hreg : node ∈ regNodes g) (hdom : (mget v node).isSome)
    (hcnt0 : tr.count (.exam node.key dk) = 0) :
    TRP g (tr ++ [.exam node.key dk]) v f := by
  refine ⟨?_, ?_, ?_, ?_, ?_⟩
  · intro x hx
    rw [cnt_app_ne tr (by simp), htrp.enter_cnt x hx]
  · intro x hx
    rw [cnt_app_ne tr (by simp), htrp.fin_cnt x hx]
  · intro x hx d
    by_cases he : Ev.exam node.key dk = Ev.exam x.key d
    · rw [← he, cnt_app_self, hcnt0]
    · rw [cnt_app_ne tr he]
      exact htrp.exam_le x hx d
  · intro x hx hnd d
    have hxne : x ≠ node := fun he => hnd (he ▸ hdom)
    have hkne : x.key ≠ node.key := fun he => hxne (hwf.key_inj hx hreg he)
    rw [cnt_app_ne tr (by simp; exact fun h => (hkne h.symm).elim)]
    exact htrp.exam_zero x hx hnd d
  · intro k hk
    have h0 := htrp.unreg k hk
    have hkne : node.key ≠ k := hk node hreg
    refine ⟨?_, ?_, ?_⟩
    · rw [cnt_app_ne tr (by simp), h0.1]
    · rw [cnt_app_ne tr (by simp), h0.2.1]
    · intro d
      rw [cnt_app_ne tr (by simp [hkne]), h0.2.2 d]

theorem trp_enter {g : Graph} (hwf : WF g) {tr : List Ev}
    {v f : List (GraphNode × Bool)} (htrp : TRP g tr v f) {node : GraphNode}
    (hreg : node ∈ regNodes g) (hdom : ¬(mget v node).isSome) :
    TRP g (tr ++ [.enter node.key]) (mset v node true) f := by
  refine ⟨?_, ?_, ?_, ?_, ?_⟩
  · intro x hx
    by_cases hxn : x = node
    · subst hxn
      rw [cnt_app_self, htrp.enter_cnt x hx, mget_mset_self]
      simp [hdom]
    · have hkne : x.key ≠ node.key := fun he => hxn (hwf.key_inj hx hreg he)
      rw [cnt_app_ne tr (by simp; exact fun h => hkne h.symm), htrp.enter_cnt x hx,
        mget_mset_ne _ _ _ _ hxn]
  · intro x hx
    rw [cnt_app_ne tr (by simp), htrp.fin_cnt x hx]
  · intro x hx d
    rw [cnt_app_ne tr (by simp)]
    exact htrp.exam_le x hx d
  · intro x hx hnd d
    have hxn : x ≠ node := by
      intro he
      subst he
      rw [mget_mset_self] at hnd
      simp at hnd
    rw [mget_mset_ne _ _ _ _ hxn] at hnd
    rw [cnt_app_ne tr (by simp)]
    exact htrp.exam_zero x hx hnd d
  · intro k hk
    have h0 := htrp.unreg k hk
    have hkne : node.key ≠ k := hk node hreg
    refine ⟨?_, ?_, ?_⟩
    · rw [cnt_app_ne tr (by simp [hkne]), h0.1]
    · rw [cnt_app_ne tr (by simp), h0.2.1]
    · intro d
      rw [cnt_app_ne tr (by simp), h0.2.2 d]

theorem trp_finish {g : Graph} (hwf : WF g) {tr : List Ev}
    {v f : List (GraphNode × Bool)} (htrp : TRP g tr v f) {node : GraphNode}
    (hreg : node ∈ regNodes g) (hdom : (mget v node).isSome)
    (hnf : ¬(mget f node).isSome) :
    TRP g (tr ++ [.fin node.key]) (mset v node false) (mset f node true) := by
  refine ⟨?_, ?_, ?_, ?_, ?_⟩
  · intro x hx
    by_cases hxn : x = node
    · subst hxn
      rw [cnt_app_ne tr (by simp), htrp.enter_cnt x hx, mget_mset_self]
      simp [hdom]
    · rw [cnt_app_ne tr (by simp), htrp.enter_cnt x hx, mget_mset_ne _ _ _ _ hxn]
  · intro x hx
    by_cases hxn : x = node
    · subst hxn
      rw [cnt_app_self, htrp.fin_cnt x hx, mget_mset_self]
      simp [hnf]
    · have hkne : x.key ≠ node.key := fun he => hxn (hwf.key_inj hx hreg he)
      rw [cnt_app_ne tr (by simp; exact fun h => hkne h.symm), htrp.fin_cnt x hx,
        mget_mset_ne _ _ _ _ hxn]
  · intro x hx d
    rw [cnt_app_ne tr (by simp)]
    exact htrp.exam_le x hx d
  · intro x hx hnd d
    have hxn : x ≠ node := by
      intro he
      subst he
      rw [mget_mset_self] at hnd
      simp at hnd
    rw [mget_mset_ne _ _ _ _ hxn] at hnd
    rw [cnt_app_ne tr (by simp)]
    exact htrp.exam_zero x hx hnd d
  · intro k hk
    have h0 := htrp.unreg k hk
    have hkne : node.key ≠ k := hk node hreg
    refine ⟨?_, ?_, ?_⟩
    · rw [cnt_app_ne tr (by simp), h0.1]
    · rw [cnt_app_ne tr (by simp [hkne]), h0.2.1]
    · intro d
      rw [cnt_app_ne tr (by simp), h0.2.2 d]

theorem freeCnt_congr {g : Graph} {v v2 : List (GraphNode × Bool)}
    (h : ∀ x, mget v2 x = some true ↔ mget v x = some true) :
    freeCnt g v2 = freeCnt g v := by
  unfold freeCnt
  exact countP_pred_congr (fun x _ => decide_eq_decide.mpr (not_congr (h x)))

theorem freeCnt_enter {g : Graph} (hwf : WF g) {v : List (GraphNode × Bool)}
    {node : GraphNode} (hreg : node ∈ regNodes g) (hnv : ¬(mget v node = some true)) :
    freeCnt g (mset v node true) + 1 = freeCnt g v := by
  unfold freeCnt
  refine countP_drop_one hwf.reg_nodup hreg (by simp [hnv]) (by simp [mget_mset_self]) ?_
  intro y hy hyn
  exact decide_eq_decide.mpr (by rw [mget_mset_ne _ _ _ _ hyn])

/-! ### The neighbor loop satisfies the traversal contract -/

theorem dfsNeighbors_spec (g : Graph) (hwf : WF g) (F : Nat)
    (dfsRec : GraphNode → List (GraphNode × Bool) → List (GraphNode × Bool) →
      List GraphNode → List Ev → DfsOut)
    (Hrec : ∀ nb v f t tr, nb ∈ regNodes g → ¬(mget v nb = some true) →
      ¬((mget f nb).isSome = true) → INVP g v f t → TRP g tr v f →
      (∀ x, mget v x = some true → reachK g x.key nb.key) →
      freeCnt g v < F →
      (dfsRec nb v f t tr ≠ .outOfFuel) ∧
      (∀ v2 f2 t2 e2, dfsRec nb v f t tr = .ok v2 f2 t2 e2 →
        OkPost g nb v f t tr v2 f2 t2 e2) ∧
      (∀ s d t2 e2, dfsRec nb v f t tr = .cycleErr s d t2 e2 → ErrPost g t s d t2 e2))
    (node : GraphNode) (hnodereg : node ∈ regNodes g) :
    ∀ ns v f t tr,
      (∀ nb ∈ ns, nb ∈ neighborsOf g node.key) →
      (ns.map GraphNode.key).Nodup →
      mget v node = some true →
      INVP g v f t → TRP g tr v f →
      (∀ x, mget v x = some true → reachK g x.key node.key) →
      (∀ nb ∈ ns, tr.count (.exam node.key nb.key) = 0) →
      freeCnt g v < F →
      (dfsNeighbors dfsRec node ns v f t tr ≠ .outOfFuel) ∧
      (∀ v2 f2 t2 e2, dfsNeighbors dfsRec node ns v f t tr = .ok v2 f2 t2 e2 →
        LoopOkPost g node ns v f t tr v2 f2 t2 e2) ∧
      (∀ s d t2 e2, dfsNeighbors dfsRec node ns v f t tr = .cycleErr s d t2 e2 →
        ErrPost g t s d t2 e2) := by
  intro ns
  induction ns with
  | nil =>
    intro v f t tr _ _ _ hinv htrp _ _ _
    refine ⟨by simp [dfsNeighbors], ?_, ?_⟩
    · intro v2 f2 t2 e2 h
      simp only [dfsNeighbors] at h
      injection h with h1 h2 h3 h4
      subst h1; subst h2; subst h3; subst h4
      exact ⟨hinv, htrp, fun x => Iff.rfl, fun x hx => hx, fun x hx => hx,
        fun x _ => Iff.rfl, ⟨[], by simp⟩, by simp, fun s _ _ d => rfl⟩
    · intro s d t2 e2 h
      simp only [dfsNeighbors] at h
      exact absurd h (by simp)
  | cons nb rest ih =>
    intro v f t tr hns hnd hnode hinv htrp hstack hex0 hfc
    have hnbmem : nb ∈ neighborsOf g node.key := hns nb (List.mem_cons_self _ _)
    have hnbreg : nb ∈ regNodes g := hwf.neighbors_reg node.key nb hnbmem
    have hdomnode : (mget v node).isSome := (hinv.dom_iff node).mpr (Or.inr hnode)
    have hcnt0 : tr.count (.exam node.key nb.key) = 0 := hex0 nb (List.mem_cons_self _ _)
    have htrp2 : TRP g (tr ++ [.exam node.key nb.key]) v f :=
      trp_append_exam hwf htrp hnodereg hdomnode hcnt0
    have hndtail : (rest.map GraphNode.key).Nodup := by
      simp only [List.map_cons, List.nodup_cons] at hnd
      exact hnd.2
    have hkeytail : ∀ nb' ∈ rest, nb.key ≠ nb'.key := by
      intro nb' hnb' he
      simp only [List.map_cons, List.nodup_cons] at hnd
      exact hnd.1 (he ▸ List.mem_map.mpr ⟨nb', hnb', rfl⟩)
    have hex0tail : ∀ nb' ∈ rest,
        List.count (Ev.exam node.key nb'.key) (tr ++ [Ev.exam node.key nb.key]) = 0 := by
      intro nb' hnb'
      rw [cnt_app_ne tr (by simp [hkeytail nb' hnb'])]
      exact hex0 nb' (List.mem_cons_of_mem _ hnb')
    by_cases hvt : mget v nb = some true
    · refine ⟨by simp [dfsNeighbors, if_pos hvt], ?_, ?_⟩
      · intro v2 f2 t2 e2 h
        simp only [dfsNeighbors, if_pos hvt] at h
        exact absurd h (by simp)
      · intro s d t2 e2 h
        simp only [dfsNeighbors, if_pos hvt] at h
        injection h with h1 h2 h3 h4
        subst h1; subst h2; subst h3; subst h4
        exact ⟨⟨[], by simp⟩, fun x hx => Or.inl hx, htrp2.cnt, ⟨nb, hnbmem, rfl⟩,
          hstack nb hvt⟩
    · by_cases hft : (mget f nb).isSome = true
      · have hrec := ih v f t (tr ++ [.exam node.key nb.key])
          (fun x hx => hns x (List.mem_cons_of_mem _ hx)) hndtail hnode hinv htrp2
          hstack hex0tail hfc
        refine ⟨?_, ?_, ?_⟩
        · simp only [dfsNeighbors, if_neg hvt, if_pos hft]
          exact hrec.1
        · intro v2 f2 t2 e2 h
          simp only [dfsNeighbors, if_neg hvt, if_pos hft] at h
          have P := hrec.2.1 v2 f2 t2 e2 h
          refine ⟨P.inv, P.trp, P.prog_pres, P.dom_mono, P.fin_mono, P.prog_fin_stable,
            P.t_ext, ?_, ?_⟩
          · intro nb' hnb'
            rcases List.mem_cons.mp hnb' with h1 | h1
            · exact h1 ▸ P.fin_mono nb hft
            · exact P.ns_fin nb' h1
          · intro s hsne hdoms d
            rw [P.exam_stable s hsne hdoms d,
              cnt_app_ne tr (by simp; exact fun h _ => hsne h.symm)]
        · intro s d t2 e2 h
          simp only [dfsNeighbors, if_neg hvt, if_pos hft] at h
          exact hrec.2.2 s d t2 e2 h
      · have hstack2 : ∀ x, mget v x = some true → reachK g x.key nb.key :=
          fun x hx => reachK_snoc (hstack x hx) ⟨nb, hnbmem, rfl⟩
        have R := Hrec nb v f t (tr ++ [.exam node.key nb.key]) hnbreg hvt hft hinv
          htrp2 hstack2 hfc
        cases hres : dfsRec nb v f t (tr ++ [.exam node.key nb.key]) with
        | outOfFuel => exact absurd hres R.1
        | cycleErr s' d' t2 e2 =>
          have E := R.2.2 s' d' t2 e2 hres
          refine ⟨?_, ?_, ?_⟩
          · simp [dfsNeighbors, if_neg hvt, if_neg hft, hres]
          · intro v3 f3 t3 e3 h
            simp only [dfsNeighbors, if_neg hvt, if_neg hft, hres] at h
            exact absurd h (by simp)
          · intro s d t3 e3 h
            simp only [dfsNeighbors, if_neg hvt, if_neg hft, hres] at h
            injection h with h1 h2 h3 h4
            subst h1; subst h2; subst h3; subst h4
            exact E
        | ok v2 f2 t2 e2 =>
          have P := R.2.1 v2 f2 t2 e2 hres
          have hwitnode : ∀ x ∈ regNodes g, x.key = node.key → (mget v x).isSome := by
            intro x hx hk
            have : x = node := hwf.key_inj hx hnodereg hk
            subst this
            exact hdomnode
          have hex0tl2 : ∀ nb' ∈ rest, e2.count (.exam node.key nb'.key) = 0 := by
            intro nb' hnb'
            rw [P.exam_stable node.key hwitnode nb'.key]
            exact hex0tail nb' hnb'
          have hrec2 := ih v2 f2 t2 e2
            (fun x hx => hns x (List.mem_cons_of_mem _ hx)) hndtail
            ((P.prog_pres node).mpr hnode) P.inv P.trp
            (fun x hx => hstack x ((P.prog_pres x).mp hx)) hex0tl2
            (by rw [freeCnt_congr P.prog_pres]; exact hfc)
          refine ⟨?_, ?_, ?_⟩
          · simp only [dfsNeighbors, if_neg hvt, if_neg hft, hres]
            exact hrec2.1
          · intro v3 f3 t3 e3 h
            simp only [dfsNeighbors, if_neg hvt, if_neg hft, hres] at h
            have Q := hrec2.2.1 v3 f3 t3 e3 h
            refine ⟨Q.inv, Q.trp, fun x => (Q.prog_pres x).trans (P.prog_pres x),
              fun x hx => Q.dom_mono x (P.dom_mono x hx),
              fun x hx => Q.fin_mono x (P.fin_mono x hx),
              fun x hx => (Q.prog_fin_stable x ((P.prog_pres x).mpr hx)).trans
                (P.prog_fin_stable x hx), ?_, ?_, ?_⟩
            · obtain ⟨z1, hz1⟩ := P.t_ext
              obtain ⟨z2, hz2⟩ := Q.t_ext
              exact ⟨z1 ++ z2, by rw [hz2, hz1, List.append_assoc]⟩
            · intro nb' hnb'
              rcases List.mem_cons.mp hnb' with h1 | h1
              · exact h1 ▸ Q.fin_mono nb P.node_fin
              · exact Q.ns_fin nb' h1
            · intro s hsne hdoms d
              rw [Q.exam_stable s hsne (fun x hx hk => P.dom_mono x (hdoms x hx hk)) d,
                P.exam_stable s hdoms d,
                cnt_app_ne tr (by simp; exact fun h _ => hsne h.symm)]
          · intro s d t3 e3 h
            simp only [dfsNeighbors, if_neg hvt, if_neg hft, hres] at h
            have E := hrec2.2.2 s d t3 e3 h
            refine ⟨?_, ?_, E.cnt, E.edge, E.back⟩
            · obtain ⟨z1, hz1⟩ := P.t_ext
              obtain ⟨z2, hz2⟩ := E.t_ext
              exact ⟨z1 ++ z2, by rw [hz2, hz1, List.append_assoc]⟩
            · intro x hx
              rcases E.t_reg x hx with h1 | h1
              · exact Or.inr (P.inv.t_reg x h1)
              · exact Or.inr h1

/-! ### The depth-first search satisfies the traversal contract -/

theorem depthFirstSearch_spec (g : Graph) (hwf : WF g) :
    ∀ fuel node v f t tr, node ∈ regNodes g → ¬(mget v node = some true) →
      ¬((mget f node).isSome = true) → INVP g v f t → TRP g tr v f →
      (∀ x, mget v x = some true → reachK g x.key node.key) →
      freeCnt g v < fuel →
      (depthFirstSearch g fuel node v f t tr ≠ .outOfFuel) ∧
      (∀ v2 f2 t2 e2, depthFirstSearch g fuel node v f t tr = .ok v2 f2 t2 e2 →
        OkPost g node v f t tr v2 f2 t2 e2) ∧
      (∀ s d t2 e2, depthFirstSearch g fuel node v f t tr = .cycleErr s d t2 e2 →
        ErrPost g t s d t2 e2) := by
  intro fuel
  induction fuel with
  | zero =>
    intro node v f t tr _ _ _ _ _ _ hfc
    exact absurd hfc (by omega)
  | succ fuel ih =>
    intro node v f t tr hreg hnv hnf hinv htrp hstack hfc
    have hdom : ¬(mget v node).isSome := by
      intro h
      rcases (hinv.dom_iff node).mp h with h1 | h1
      · exact hnf h1
      · exact hnv h1
    have htrp1 : TRP g (tr ++ [.enter node.key]) (mset v node true) f :=
      trp_enter hwf htrp hreg hdom
    have hinv1 : INVP g (mset v node true) f t := by
      refine ⟨hinv.fin_mem, hinv.nodup, hinv.t_reg, hinv.ord, ?_, ?_⟩
      · intro x
        by_cases hxn : x = node
        · subst hxn
          rw [mget_mset_self]
          simp
        · rw [mget_mset_ne _ _ _ _ hxn]
          exact hinv.dom_iff x
      · intro x hx
        by_cases hxn : x = node
        · exact hxn ▸ hreg
        · rw [mget_mset_ne _ _ _ _ hxn] at hx
          exact hinv.prog_reg x hx
    have hstack1 : ∀ x, mget (mset v node true) x = some true → reachK g x.key node.key := by
      intro x hx
      by_cases hxn : x = node
      · subst hxn
        exact reachK.refl _
      · rw [mget_mset_ne _ _ _ _ hxn] at hx
        exact hstack x hx
    have hfc1 : freeCnt g (mset v node true) < fuel := by
      have := freeCnt_enter hwf hreg hnv
      omega
    have hex0 : ∀ nb ∈ neighborsOf g node.key,
        List.count (Ev.exam node.key nb.key) (tr ++ [Ev.enter node.key]) = 0 := by
      intro nb _
      rw [cnt_app_ne tr (by simp)]
      exact htrp.exam_zero node hreg hdom nb.key
    have hloop := dfsNeighbors_spec g hwf fuel (depthFirstSearch g fuel)
      (fun nb v' f' t' tr' h1 h2 h3 h4 h5 h6 h7 => ih nb v' f' t' tr' h1 h2 h3 h4 h5 h6 h7)
      node hreg (neighborsOf g node.key) (mset v node true) f t (tr ++ [.enter node.key])
      (fun x hx => hx) (hwf.neighbors_key_nodup node.key) (mget_mset_self v node true)
      hinv1 htrp1 hstack1 hex0 hfc1
    cases hres : dfsNeighbors (depthFirstSearch g fuel) node (neighborsOf g node.key)
        (mset v node true) f t (tr ++ [.enter node.key]) with
    | outOfFuel => exact absurd hres hloop.1
    | cycleErr s' d' t2 e2 =>
      have E := hloop.2.2 s' d' t2 e2 hres
      refine ⟨?_, ?_, ?_⟩
      · simp [depthFirstSearch, hres]
      · intro v2 f2 t2' e2' h
        simp only [depthFirstSearch, hres] at h
        exact absurd h (by simp)
      · intro s d t2' e2' h
        simp only [depthFirstSearch, hres] at h
        injection h with h1 h2 h3 h4
        subst h1; subst h2; subst h3; subst h4
        exact E
    | ok v2 f2 t2 e2 =>
      have P := hloop.2.1 v2 f2 t2 e2 hres
      have hv1node : mget (mset v node true) node = some true := mget_mset_self v node true
      have hv2node : mget v2 node = some true := (P.prog_pres node).mpr hv1node
      have hf2node : ¬(mget f2 node).isSome := by
        intro h
        exact hnf ((P.prog_fin_stable node hv1node).mp h)
      have hnodet2 : node ∉ t2 := fun h => hf2node ((P.inv.fin_mem node).mpr h)
      refine ⟨?_, ?_, ?_⟩
      · simp [depthFirstSearch, hres]
      · intro v3 f3 t3 e3 h
        simp only [depthFirstSearch, hres] at h
        injection h with h1 h2 h3 h4
        subst h1; subst h2; subst h3; subst h4
        have hdm : ∀ x, (mget v x).isSome → (mget (mset v2 node false) x).isSome := by
          intro x hx
          by_cases hxn : x = node
          · subst hxn
            rw [mget_mset_self]
            rfl
          · rw [mget_mset_ne _ _ _ _ hxn]
            refine P.dom_mono x ?_
            rw [mget_mset_ne _ _ _ _ hxn]
            exact hx
        refine ⟨?_, ?_, ?_, hdm, ?_, ?_, ?_, ?_, ?_⟩
        · refine ⟨?_, ?_, ?_, ?_, ?_, ?_⟩
          · intro x
            by_cases hxn : x = node
            · subst hxn
              rw [mget_mset_self]
              simp [hnodet2]
            · rw [mget_mset_ne _ _ _ _ hxn]
              rw [P.inv.fin_mem x]
              simp [List.mem_append, hxn]
          · exact P.inv.nodup.append (List.nodup_singleton node)
              (by simp [List.disjoint_singleton, hnodet2])
          · intro x hx
            rcases List.mem_append.mp hx with h1 | h1
            · exact P.inv.t_reg x h1
            · simp at h1
              exact h1 ▸ hreg
          · intro s hs d hd
            rcases List.mem_append.mp hs with h1 | h1
            · have := P.inv.ord s h1 d hd
              refine ⟨List.mem_append_left _ this.1, ?_⟩
              rw [List.indexOf_append_of_mem this.1, List.indexOf_append_of_mem h1]
              exact this.2
            · simp at h1
              subst h1
              have hdfin : (mget f2 d).isSome := P.ns_fin d hd
              have hdmem : d ∈ t2 := (P.inv.fin_mem d).mp hdfin
              refine ⟨List.mem_append_left _ hdmem, ?_⟩
              rw [List.indexOf_append_of_mem hdmem,
                List.indexOf_append_of_not_mem hnodet2]
              simp only [List.indexOf_cons_self, Nat.add_zero]
              exact List.indexOf_lt_length.mpr hdmem
          · intro x
            by_cases hxn : x = node
            · subst hxn
              rw [mget_mset_self, mget_mset_self]
              simp
            · rw [mget_mset_ne _ _ _ _ hxn, mget_mset_ne _ _ _ _ hxn]
              exact P.inv.dom_iff x
          · intro x hx
            by_cases hxn : x = node
            · exact hxn ▸ hreg
            · rw [mget_mset_ne _ _ _ _ hxn] at hx
              exact P.inv.prog_reg x hx
        · exact trp_finish hwf P.trp hreg (by rw [hv2node]; rfl) hf2node
        · intro x
          by_cases hxn : x = node
          · subst hxn
            rw [mget_mset_self]
            simp [hnv]
          · rw [mget_mset_ne _ _ _ _ hxn]
            rw [P.prog_pres x, mget_mset_ne _ _ _ _ hxn]
        · intro x hx
          by_cases hxn : x = node
          · subst hxn
            rw [mget_mset_self]
            rfl
          · rw [mget_mset_ne _ _ _ _ hxn]
            exact P.fin_mono x hx
        · intro x hx
          have hxn : x ≠ node := fun he => hnv (he ▸ hx)
          rw [mget_mset_ne _ _ _ _ hxn]
          refine (P.prog_fin_stable x ?_)
          rw [mget_mset_ne _ _ _ _ hxn]
          exact hx
        · obtain ⟨zs, hzs⟩ := P.t_ext
          exact ⟨zs ++ [node], by rw [hzs, List.append_assoc]⟩
        · rw [mget_mset_self]
          rfl
        · intro s hdoms d
          have hsne : s ≠ node.key := by
            intro he
            exact hdom (hdoms node hreg he.symm)
          have hdoms1 : ∀ x ∈ regNodes g, x.key = s → (mget (mset v node true) x).isSome := by
            intro x hx hk
            by_cases hxn : x = node
            · exact absurd (hxn ▸ hk) (fun h => hsne h.symm)
            · rw [mget_mset_ne _ _ _ _ hxn]
              exact hdoms x hx hk
          rw [cnt_app_ne e2 (by simp), P.exam_stable s hsne hdoms1 d,
            cnt_app_ne tr (by simp)]
      · intro s d t2' e2' h
        simp only [depthFirstSearch, hres] at h
        exact absurd h (by simp)

/-! ### The sort driver satisfies its contract -/

theorem sortLoop_spec (g : Graph) (hwf : WF g) :
    ∀ order v f t tr,
      (∀ x ∈ order, x ∈ regNodes g) →
      INVP g v f t → TRP g tr v f →
      (∀ x, ¬(mget v x = some true)) →
      ∃ res, sortLoop g order v f t tr = some res ∧
        (SortOkPost g order t res ∨ SortErrPost g t res) := by
  intro order
  induction order with
  | nil =>
    intro v f t tr _ hinv htrp _
    refine ⟨⟨Graph.mk g.adjacencyList g.vertices t,
      sortedKeys (Graph.mk g.adjacencyList g.vertices t), none, tr⟩, rfl, Or.inl ?_⟩
    exact ⟨rfl, rfl, rfl, rfl, hinv.nodup, hinv.t_reg, hinv.ord, ⟨[], by simp⟩,
      by simp, htrp.cnt⟩
  | cons n rest ih =>
    intro v f t tr horder hinv htrp hprog
    have hnreg : n ∈ regNodes g := horder n (List.mem_cons_self _ _)
    by_cases hcond : ((mget v n).isSome || (mget f n).isSome) = true
    · have hnt : n ∈ t := by
        rcases Bool.or_eq_true .. ▸ hcond with h1 | h1
        · rcases (hinv.dom_iff n).mp h1 with h2 | h2
          · exact (hinv.fin_mem n).mp h2
          · exact absurd h2 (hprog n)
        · exact (hinv.fin_mem n).mp h1
      obtain ⟨res, heq, hpost⟩ := ih v f t tr
        (fun x hx => horder x (List.mem_cons_of_mem _ hx)) hinv htrp hprog
      refine ⟨res, ?_, ?_⟩
      · simp only [sortLoop, if_pos hcond]
        exact heq
      · rcases hpost with hp | hp
        · refine Or.inl ⟨hp.adj_eq, hp.vert_eq, hp.err_none, hp.keys_eq, hp.nodup,
            hp.t_reg, hp.ord, hp.t_ext, ?_, hp.cnt⟩
          intro x hx
          rcases List.mem_cons.mp hx with h1 | h1
          · obtain ⟨zs, hzs⟩ := hp.t_ext
            rw [hzs]
            exact List.mem_append_left _ (h1 ▸ hnt)
          · exact hp.complete x h1
        · exact Or.inr hp
    · rw [Bool.or_eq_true] at hcond
      push_neg at hcond
      have hnv : ¬(mget v n = some true) := fun h => hcond.1 (by rw [h]; rfl)
      have hfc : freeCnt g v < g.vertices.length + 1 := by
        have h1 : freeCnt g v ≤ (regNodes g).length := List.countP_le_length _
        have h2 : (regNodes g).length = g.vertices.length := List.length_map _ _
        omega
      have hdfs := depthFirstSearch_spec g hwf (g.vertices.length + 1) n v f t tr
        hnreg hnv hcond.2 hinv htrp (fun x hx => absurd hx (hprog x)) hfc
      cases hres : depthFirstSearch g (g.vertices.length + 1) n v f t tr with
      | outOfFuel => exact absurd hres hdfs.1
      | ok v2 f2 t2 e2 =>
        have P := hdfs.2.1 v2 f2 t2 e2 hres
        have hprog2 : ∀ x, ¬(mget v2 x = some true) :=
          fun x hx => hprog x ((P.prog_pres x).mp hx)
        obtain ⟨res, heq, hpost⟩ := ih v2 f2 t2 e2
          (fun x hx => horder x (List.mem_cons_of_mem _ hx)) P.inv P.trp hprog2
        refine ⟨res, ?_, ?_⟩
        · have hcondf : ((mget v n).isSome || (mget f n).isSome) = false := by
            simp only [Bool.or_eq_false_iff]
            constructor
            · cases h : (mget v n).isSome
              · rfl
              · exact absurd h hcond.1
            · cases h : (mget f n).isSome
              · rfl
              · exact absurd h hcond.2
          simp only [sortLoop, hcondf, Bool.false_eq_true, if_false, hres]
          exact heq
        · rcases hpost with hp | hp
          · refine Or.inl ⟨hp.adj_eq, hp.vert_eq, hp.err_none, hp.keys_eq, hp.nodup,
              hp.t_reg, hp.ord, ?_, ?_, hp.cnt⟩
            · obtain ⟨z1, hz1⟩ := P.t_ext
              obtain ⟨z2, hz2⟩ := hp.t_ext
              exact ⟨z1 ++ z2, by rw [hz2, hz1, List.append_assoc]⟩
            · intro x hx
              rcases List.mem_cons.mp hx with h1 | h1
              · obtain ⟨z2, hz2⟩ := hp.t_ext
                rw [hz2]
                refine List.mem_append_left _ ?_
                exact h1 ▸ ((P.inv.fin_mem n).mp P.node_fin)
              · exact hp.complete x h1
          · refine Or.inr ⟨hp.adj_eq, hp.vert_eq, hp.err_some, hp.keys_nil, ?_, hp.cnt⟩
            intro x hx
            rcases hp.t_reg x hx with h1 | h1
            · exact Or.inr (P.inv.t_reg x h1)
            · exact Or.inr h1
      | cycleErr s d t2 e2 =>
        have E := hdfs.2.2 s d t2 e2 hres
        have hcondf : ((mget v n).isSome || (mget f n).isSome) = false := by
          simp only [Bool.or_eq_false_iff]
          constructor
          · cases h : (mget v n).isSome
            · rfl
            · exact absurd h hcond.1
          · cases h : (mget f n).isSome
            · rfl
            · exact absurd h hcond.2
        refine ⟨⟨Graph.mk g.adjacencyList g.vertices t2, [],
          some (.cycleDetected s d), e2⟩, ?_, Or.inr ?_⟩
        · simp only [sortLoop, hcondf, Bool.false_eq_true, if_false, hres]
        · exact ⟨rfl, rfl, ⟨s, d, rfl, E.edge, E.back⟩, rfl, E.t_reg, E.cnt⟩

theorem INVP_nil (g : Graph) : INVP g [] [] [] := by
  refine ⟨?_, ?_, ?_, ?_, ?_, ?_⟩ <;> simp [mget]

theorem TRP_nil (g : Graph) : TRP g [] [] [] := by
  refine ⟨?_, ?_, ?_, ?_, ?_⟩ <;> simp [mget]

theorem topologicalSort_spec (g : Graph) (hwf : WF g) (ht : g.topoSortedOrder = [])
    {order : List GraphNode} (horder : ∀ x ∈ order, x ∈ regNodes g) :
    ∃ res, topologicalSort g order = some res ∧
      (SortOkPost g order [] res ∨ SortErrPost g [] res) := by
  unfold topologicalSort
  rw [ht]
  exact sortLoop_spec g hwf order [] [] [] [] horder (INVP_nil g) (TRP_nil g)
    (fun x => by simp [mget])

theorem sortOk_perm {g : Graph} (hwf : WF g) {order : List GraphNode} {res : SortResult}
    (hcov : ∀ x ∈ regNodes g, x ∈ order) (hp : SortOkPost g order [] res) :
    res.keys.Perm (vertexKeys g) := by
  have hperm : res.graph.topoSortedOrder.Perm (regNodes g) := by
    rw [List.perm_ext_iff_of_nodup hp.nodup hwf.reg_nodup]
    intro x
    exact ⟨fun hx => hp.t_reg x hx, fun hx => hp.complete x (hcov x hx)⟩
  rw [hp.keys_eq, ← hwf.reg_keys]
  exact hperm.map GraphNode.key

theorem sortOk_edge_lt {g : Graph} (hwf : WF g) {order : List GraphNode} {res : SortResult}
    (hcov : ∀ x ∈ regNodes g, x ∈ order) (hp : SortOkPost g order [] res) :
    ∀ s d, isEdgeK g s d → d ∈ res.keys ∧ s ∈ res.keys ∧
      res.keys.indexOf d < res.keys.indexOf s := by
  intro s d he
  obtain ⟨xs, hxs, hxskey⟩ := hwf.edge_src_reg he
  obtain ⟨nb, hnb, hnbkey⟩ := he
  have hnbreg : nb ∈ regNodes g := hwf.neighbors_reg s nb hnb
  have hxst : xs ∈ res.graph.topoSortedOrder := hp.complete xs (hcov xs hxs)
  have hnb' : nb ∈ neighborsOf g xs.key := by rw [hxskey]; exact hnb
  obtain ⟨hnbt, hidx⟩ := hp.ord xs hxst nb hnb'
  have hknd : (res.graph.topoSortedOrder.map GraphNode.key).Nodup :=
    keymap_nodup hwf hp.nodup hp.t_reg
  have hd : d ∈ res.keys := by
    rw [hp.keys_eq, ← hnbkey]
    exact List.mem_map.mpr ⟨nb, hnbt, rfl⟩
  have hs : s ∈ res.keys := by
    rw [hp.keys_eq, ← hxskey]
    exact List.mem_map.mpr ⟨xs, hxst, rfl⟩
  refine ⟨hd, hs, ?_⟩
  rw [hp.keys_eq, ← hnbkey, ← hxskey, indexOf_map_key hknd hnbt, indexOf_map_key hknd hxst]
  exact hidx

theorem sortOk_reach_le {g : Graph} (hwf : WF g) {order : List GraphNode} {res : SortResult}
    (hcov : ∀ x ∈ regNodes g, x ∈ order) (hp : SortOkPost g order [] res) :
    ∀ a b, reachK g a b → res.keys.indexOf b ≤ res.keys.indexOf a := by
  intro a b hr
  induction hr with
  | refl x => exact Nat.le_refl _
  | step hab _ ih =>
    have := (sortOk_edge_lt hwf hcov hp _ _ hab).2.2
    omega

theorem sortOk_noCycle {g : Graph} (hwf : WF g) {order : List GraphNode} {res : SortResult}
    (hcov : ∀ x ∈ regNodes g, x ∈ order) (hp : SortOkPost g order [] res) :
    ¬ hasCycle g := by
  rintro ⟨s, d, he, hr⟩
  have h1 := (sortOk_edge_lt hwf hcov hp s d he).2.2
  have h2 := sortOk_reach_le hwf hcov hp d s hr
  omega

/-! ### Claim C1 -/

/-- C1: for every graph built by `RegisterVertex` and `AddEdge` calls (so it
is well-formed and carries no previously accumulated sorted order), and for
every iteration order of the vertex map, if `TopologicalSort` returns
without error then the returned sequence holds every registered key exactly
once and nothing else — disconnected vertices included, since the order is
a permutation of the whole vertex set — and for every edge `source → dest`
the key `dest` appears strictly before `source`. -/
theorem claim_C1_sort_sound (g : Graph) (order : List GraphNode) (res : SortResult)
    (hwf : WF g) (ht : g.topoSortedOrder = []) (hord : order.Perm (regNodes g))
    (hres : topologicalSort g order = some res) (herr : res.err = none) :
    (∀ k ∈ vertexKeys g, res.keys.count k = 1) ∧
    (∀ k ∈ res.keys, k ∈ vertexKeys g) ∧
    (∀ s d, isEdgeK g s d → d ∈ res.keys ∧ s ∈ res.keys ∧
      res.keys.indexOf d < res.keys.indexOf s) := by
  obtain ⟨res', heq, hpost⟩ := topologicalSort_spec g hwf ht
    (fun x hx => hord.mem_iff.mp hx)
  rw [hres] at heq
  have hre : res' = res := (Option.some.inj heq).symm
  subst hre
  rcases hpost with hp | hp
  · have hcov : ∀ x ∈ regNodes g, x ∈ order := fun x hx => hord.mem_iff.mpr hx
    have hperm := sortOk_perm hwf hcov hp
    refine ⟨?_, ?_, sortOk_edge_lt hwf hcov hp⟩
    · intro k hk
      rw [hperm.count_eq]
      exact List.count_eq_one_of_mem hwf.2.1 hk
    · intro k hk
      exact hperm.mem_iff.mp hk
  · obtain ⟨s, d, hs, _⟩ := hp.err_some
    rw [herr] at hs
    exact absurd hs (by simp)

/-- Witness for C1 at the one-vertex graph. -/
theorem claim_C1_sort_sound_witness : resSingle.keys.count "a" = 1 :=
  (claim_C1_sort_sound gSingle (regNodes gSingle) resSingle (by decide) rfl
    (by decide) (by decide) (by decide)).1 "a" (by decide)

/-! ### Claim C2 -/

/-- C2: for every built graph whose edge relation contains a directed
cycle, and for every iteration order, `TopologicalSort` returns a cycle
error whose two keys form the closing back edge — they are an edge of the
graph whose target reaches back to its source — and the returned key
sequence is empty, never a partial or full ordering. -/
theorem claim_C2_cycle_error (g : Graph) (order : List GraphNode)
    (hwf : WF g) (ht : g.topoSortedOrder = []) (hord : order.Perm (regNodes g))
    (hcyc : hasCycle g) :
    ∃ res, topologicalSort g order = some res ∧ res.keys = [] ∧
      ∃ s d, res.err = some (GraphError.cycleDetected s d) ∧
        isEdgeK g s d ∧ reachK g d s := by
  obtain ⟨res, heq, hpost⟩ := topologicalSort_spec g hwf ht
    (fun x hx => hord.mem_iff.mp hx)
  rcases hpost with hp | hp
  · exact absurd hcyc (sortOk_noCycle hwf (fun x hx => hord.mem_iff.mpr hx) hp)
  · exact ⟨res, heq, hp.keys_nil, hp.err_some⟩

/-- Witness for C2 at the self-loop graph. -/
theorem claim_C2_cycle_error_witness : resSelf.keys = [] := by
  obtain ⟨res, heq, hk, _⟩ := claim_C2_cycle_error gSelf (regNodes gSelf) (by decide) rfl
    (by decide) ⟨"c", "c", by decide, reachK.refl "c"⟩
  have h2 : topologicalSort gSelf (regNodes gSelf) = some resSelf := by decide
  rw [h2] at heq
  rw [Option.some.inj heq]
  exact hk

/-! ### Claim C7 -/

/-- C7: on every built graph, cyclic or acyclic, and for every iteration
order, `TopologicalSort` terminates (the fuel `|vertices| + 1` given to
each DFS call is never exhausted, so the embedding returns a result exactly
as the unbounded Go recursion does), and during the one sort invocation
each vertex is entered at most once, finished at most once, and each
adjacency entry — identified by its (source, dest) key pair, unique within
one adjacency slice by duplicate-edge rejection — is examined at most
once. -/
theorem claim_C7_terminates (g : Graph) (order : List GraphNode)
    (hwf : WF g) (ht : g.topoSortedOrder = []) (hord : order.Perm (regNodes g)) :
    ∃ res, topologicalSort g order = some res ∧
      (∀ k, res.trace.count (Ev.enter k) ≤ 1) ∧
      (∀ k, res.trace.count (Ev.fin k) ≤ 1) ∧
      (∀ s d, res.trace.count (Ev.exam s d) ≤ 1) := by
  obtain ⟨res, heq, hpost⟩ := topologicalSort_spec g hwf ht
    (fun x hx => hord.mem_iff.mp hx)
  rcases hpost with hp | hp
  · exact ⟨res, heq, hp.cnt⟩
  · exact ⟨res, heq, hp.cnt⟩

/-- Witness for C7 at the (cyclic) self-loop graph. -/
theorem claim_C7_terminates_witness : resSelf.trace.count (Ev.exam "c" "c") ≤ 1 := by
  obtain ⟨res, heq, _, _, h3⟩ := claim_C7_terminates gSelf (regNodes gSelf) (by decide) rfl
    (by decide)
  have h2 : topologicalSort gSelf (regNodes gSelf) = some resSelf := by decide
  rw [h2] at heq
  rw [Option.some.inj heq]
  exact h3 "c" "c"

/-! ### Claim C5 -/

/-- C5 (code bug): with only `a` registered, `AddEdge("a", "b")` fails
because the destination `b` is unregistered, yet the error names the
registered source `a`, not the missing key `b` — the Go code formats
`source` in the dest-missing branch — so the two endpoint cases are not
reported distinctly (both produce the same error shape naming the source
argument); the graph, and so the adjacency relation, is unchanged. -/
theorem claim_C5_dest_error_names_source :
    addEdge gSingle "a" "b" = (gSingle, some (GraphError.unregisteredVertex "a")) ∧
    addEdge gSingle "b" "a" = (gSingle, some (GraphError.unregisteredVertex "b")) := by
  decide

/-! ### Claim C6 -/

/-- C6: registering an already-registered key fails with the
duplicate-vertex error and returns the graph unchanged (the first
registration is retained), and adding an ordered pair that already is an
edge fails with the duplicate-edge error and returns the graph — hence the
adjacency sequence — unchanged. -/
theorem claim_C6_duplicates_rejected (g : Graph) (hwf : WF g) :
    (∀ k dat, (mget g.vertices k).isSome →
      registerVertex g k dat = (g, some GraphError.duplicateVertex)) ∧
    (∀ s d, isEdgeK g s d →
      addEdge g s d = (g, some (GraphError.duplicateEdge s d))) := by
  constructor
  · intro k dat hk
    cases hm : mget g.vertices k with
    | none => rw [hm] at hk; exact absurd hk (by simp)
    | some n => simp [registerVertex, hm]
  · intro s d he
    obtain ⟨xs, hxs, hxskey⟩ := hwf.edge_src_reg he
    obtain ⟨nb, hnb, hnbkey⟩ := he
    have hnbreg : nb ∈ regNodes g := hwf.neighbors_reg s nb hnb
    have hs' : mget g.vertices s = some xs := by
      rw [← hxskey]
      exact hwf.mget_of_reg hxs
    have hd' : mget g.vertices d = some nb := by
      rw [← hnbkey]
      exact hwf.mget_of_reg hnbreg
    have hc : containsNode ((mget g.adjacencyList s).getD []) nb = true :=
      (containsNode_iff _ _).mpr hnb
    simp [addEdge, hs', hd', hc]

/-- Witness for C6 at the two-vertex graph with edge `a → b`. -/
theorem claim_C6_duplicates_rejected_witness :
    registerVertex gPair "a" "zz" = (gPair, some GraphError.duplicateVertex) ∧
    addEdge gPair "a" "b" = (gPair, some (GraphError.duplicateEdge "a" "b")) :=
  ⟨(claim_C6_duplicates_rejected gPair (by decide)).1 "a" "zz" (by decide),
   (claim_C6_duplicates_rejected gPair (by decide)).2 "a" "b" (by decide)⟩

/-! ### Claim C3 -/

/-- C3 (code bug): on the cyclic graph `gAbort` — whatever iteration order
the driver uses for the three vertices — `TopologicalSort` fails and
returns the empty slice, but the traversal has already appended the
finished vertex `x` to the persistent `g.topoSortedOrder`, so the
`SortedKeys` and `SortedValues` accessors expose the partial ordering
`["x"]` / `["dx"]` produced by the failed sort: the graph is mutated by the
sort call, contradicting the claim. -/
theorem claim_C3_failed_sort_exposes_partial :
    ((topologicalSort gAbort
        [newGraphNode "x" "dx", newGraphNode "c" "dc", newGraphNode "d" "dd"]).map
      (fun r => (r.keys, r.err.isSome, sortedKeys r.graph, sortedValues r.graph)) =
      some ([], true, ["x"], ["dx"])) ∧
    ((topologicalSort gAbort
        [newGraphNode "x" "dx", newGraphNode "d" "dd", newGraphNode "c" "dc"]).map
      (fun r => (r.keys, r.err.isSome, sortedKeys r.graph, sortedValues r.graph)) =
      some ([], true, ["x"], ["dx"])) ∧
    ((topologicalSort gAbort
        [newGraphNode "c" "dc", newGraphNode "x" "dx", newGraphNode "d" "dd"]).map
      (fun r => (r.keys, r.err.isSome, sortedKeys r.graph, sortedValues r.graph)) =
      some ([], true, ["x"], ["dx"])) ∧
    ((topologicalSort gAbort
        [newGraphNode "c" "dc", newGraphNode "d" "dd", newGraphNode "x" "dx"]).map
      (fun r => (r.keys, r.err.isSome, sortedKeys r.graph, sortedValues r.graph)) =
      some ([], true, ["x"], ["dx"])) ∧
    ((topologicalSort gAbort
        [newGraphNode "d" "dd", newGraphNode "x" "dx", newGraphNode "c" "dc"]).map
      (fun r => (r.keys, r.err.isSome, sortedKeys r.graph, sortedValues r.graph)) =
      some ([], true, ["x"], ["dx"])) ∧
    ((topologicalSort gAbort
        [newGraphNode "d" "dd", newGraphNode "c" "dc", newGraphNode "x" "dx"]).map
      (fun r => (r.keys, r.err.isSome, sortedKeys r.graph, sortedValues r.graph)) =
      some ([], true, ["x"], ["dx"])) := by
  refine ⟨?_, ?_, ?_, ?_, ?_, ?_⟩ <;> decide

/-! ### Claim C4 -/

/-- C4 (code bug): `topoSortedOrder` is persistent graph state appended to
by every traversal and never cleared, so on the acyclic two-vertex graph
`gDep` the first `TopologicalSort` call returns `["a", "b"]` but a second
call with no intervening mutation returns `["a", "b", "a", "b"]` — the
first result duplicated — whichever iteration order either call uses. -/
theorem claim_C4_second_sort_duplicates :
    ((topologicalSort gDep [newGraphNode "a" "da", newGraphNode "b" "db"]).map
      (fun r => r.keys) = some ["a", "b"]) ∧
    ((topologicalSort gDep [newGraphNode "b" "db", newGraphNode "a" "da"]).map
      (fun r => r.keys) = some ["a", "b"]) ∧
    (((topologicalSort gDep [newGraphNode "a" "da", newGraphNode "b" "db"]).bind
      (fun r => topologicalSort r.graph [newGraphNode "a" "da", newGraphNode "b" "db"])).map
      (fun r => r.keys) = some ["a", "b", "a", "b"]) ∧
    (((topologicalSort gDep [newGraphNode "a" "da", newGraphNode "b" "db"]).bind
      (fun r => topologicalSort r.graph [newGraphNode "b" "db", newGraphNode "a" "da"])).map
      (fun r => r.keys) = some ["a", "b", "a", "b"]) ∧
    (((topologicalSort gDep [newGraphNode "b" "db", newGraphNode "a" "da"]).bind
      (fun r => topologicalSort r.graph [newGraphNode "a" "da", newGraphNode "b" "db"])).map
      (fun r => r.keys) = some ["a", "b", "a", "b"]) ∧
    (((topologicalSort gDep [newGraphNode "b" "db", newGraphNode "a" "da"]).bind
      (fun r => topologicalSort r.graph [newGraphNode "b" "db", newGraphNode "a" "da"])).map
      (fun r => r.keys) = some ["a", "b", "a", "b"]) := by
  decide

/-! ### Claim C10 -/

/-- C10 counterexample: on `gTwoCycle` — vertices `a`, `b`, `c` with the
two-cycle `a → b`, `b → a` — adding the self-loop `c → c` succeeds, but the
subsequent `TopologicalSort` reports the closing edge `(b, a)` of the cycle
it meets first, not `(c, c)`: the claim that the cycle error names `k` as
both endpoints for every registered `k` with a self-loop is false. -/
theorem claim_C10_counterexample :
    ((addEdge gTwoCycle "c" "c").2 = none) ∧
    ((topologicalSort (addEdge gTwoCycle "c" "c").1
        [newGraphNode "a" "da", newGraphNode "b" "db", newGraphNode "c" "dc"]).map
      (fun r => r.err) = some (some (GraphError.cycleDetected "b" "a"))) ∧
    GraphError.cycleDetected "b" "a" ≠ GraphError.cycleDetected "c" "c" := by
  refine ⟨?_, ?_, ?_⟩ <;> decide

/-- C10 as amended: for every registered key `k` of a built graph whose
self-loop is not already present, `AddEdge(k, k)` succeeds, and every
subsequent `TopologicalSort` fails with a cycle error; the closing edge the
error names is whichever back edge the traversal meets first — `(k, k)`
itself only when no other cycle is detected before the self-loop. -/
theorem claim_C10_selfloop_detected (g : Graph) (k : String) (kn : GraphNode)
    (hwf : WF g) (ht : g.topoSortedOrder = []) (hk : mget g.vertices k = some kn)
    (hne : ¬ isEdgeK g k k) :
    ((addEdge g k k).2 = none) ∧
    ∀ order, order.Perm (regNodes (addEdge g k k).1) →
      ∃ res, topologicalSort (addEdge g k k).1 order = some res ∧
        ∃ s d, res.err = some (GraphError.cycleDetected s d) := by
  have hknkey : kn.key = k := hwf.1 (k, kn) (mget_mem hk)
  have hc : containsNode ((mget g.adjacencyList k).getD []) kn = false := by
    cases hcc : containsNode ((mget g.adjacencyList k).getD []) kn with
    | false => rfl
    | true =>
      exact absurd ⟨kn, (containsNode_iff _ _).mp hcc, hknkey⟩ hne
  have hadd : addEdge g k k =
      (Graph.mk (mset g.adjacencyList k (((mget g.adjacencyList k).getD []) ++ [kn]))
        g.vertices g.topoSortedOrder, none) := by
    simp [addEdge, hk, hc]
  constructor
  · rw [hadd]
  · intro order hord
    have hwf2 : WF (addEdge g k k).1 := addEdge_wf hwf k k
    have ht2 : (addEdge g k k).1.topoSortedOrder = [] := by rw [addEdge_topo, ht]
    have hcyc : hasCycle (addEdge g k k).1 := by
      refine ⟨k, k, ⟨kn, ?_, hknkey⟩, reachK.refl k⟩
      show kn ∈ neighborsOf (addEdge g k k).1 k
      rw [hadd]
      show kn ∈ (mget (mset g.adjacencyList k
        (((mget g.adjacencyList k).getD []) ++ [kn])) k).getD []
      rw [mget_mset_self]
      simp
    obtain ⟨res, heq, hpost⟩ := topologicalSort_spec (addEdge g k k).1 hwf2 ht2
      (fun x hx => hord.mem_iff.mp hx)
    rcases hpost with hp | hp
    · exact absurd hcyc (sortOk_noCycle hwf2 (fun x hx => hord.mem_iff.mpr hx) hp)
    · obtain ⟨s, d, hs, _⟩ := hp.err_some
      exact ⟨res, heq, s, d, hs⟩

/-- Witness for the amended C10 at the one-vertex graph. -/
theorem claim_C10_selfloop_detected_witness :
    ((addEdge gSingle "a" "a").2 = none) ∧ resSingleLoop.err.isSome = true := by
  have hmain := claim_C10_selfloop_detected gSingle "a" (newGraphNode "a" "da")
    (by decide) rfl (by decide) (by decide)
  refine ⟨hmain.1, ?_⟩
  obtain ⟨res, heq, s, d, herr⟩ := hmain.2 (regNodes gSingleLoop) (by decide)
  have heq2 : topologicalSort gSingleLoop (regNodes gSingleLoop) = some res := heq
  have h3 : topologicalSort gSingleLoop (regNodes gSingleLoop) = some resSingleLoop := by
    decide
  rw [h3] at heq2
  rw [Option.some.inj heq2, herr]
  rfl

/-! ### Claim C8 -/

theorem gChain5_adj : gChain5.adjacencyList =
    [("two", [newGraphNode "one" "d1"]), ("three", [newGraphNode "two" "d2"]),
     ("four", [newGraphNode "three" "d3"]), ("five", [newGraphNode "four" "d4"])] := by
  decide

theorem chain_edge_char : ∀ s d, isEdgeK gChain5 s d →
    (s = "two" ∧ d = "one") ∨ (s = "three" ∧ d = "two") ∨
    (s = "four" ∧ d = "three") ∨ (s = "five" ∧ d = "four") := by
  intro s d he
  obtain ⟨nb, hnb, hk⟩ := he
  unfold neighborsOf at hnb
  rw [gChain5_adj] at hnb
  simp only [mget] at hnb
  split_ifs at hnb with h1 h2 h3 h4
  · simp at hnb
    subst hnb
    exact Or.inl ⟨h1.symm, hk.symm⟩
  · simp at hnb
    subst hnb
    exact Or.inr (Or.inl ⟨h2.symm, hk.symm⟩)
  · simp at hnb
    subst hnb
    exact Or.inr (Or.inr (Or.inl ⟨h3.symm, hk.symm⟩))
  · simp at hnb
    subst hnb
    exact Or.inr (Or.inr (Or.inr ⟨h4.symm, hk.symm⟩))
  · simp at hnb

theorem chain_edge_rank : ∀ s d, isEdgeK gChain5 s d → chainRank d < chainRank s := by
  intro s d he
  rcases chain_edge_char s d he with ⟨hs, hd⟩ | ⟨hs, hd⟩ | ⟨hs, hd⟩ | ⟨hs, hd⟩ <;>
    (subst hs; subst hd; decide)

theorem chain_reach_rank : ∀ a b, reachK gChain5 a b → chainRank b ≤ chainRank a := by
  intro a b hr
  induction hr with
  | refl x => exact Nat.le_refl _
  | step hab _ ih =>
    have := chain_edge_rank _ _ hab
    omega

theorem chain_no_cycle : ¬ hasCycle gChain5 := by
  rintro ⟨s, d, he, hr⟩
  have h1 := chain_edge_rank s d he
  have h2 := chain_reach_rank d s hr
  omega

theorem perm5_det (K : List String) (hp : K.Perm ["one", "two", "three", "four", "five"])
    (h1 : K.indexOf "one" < K.indexOf "two") (h2 : K.indexOf "two" < K.indexOf "three")
    (h3 : K.indexOf "three" < K.indexOf "four") (h4 : K.indexOf "four" < K.indexOf "five") :
    K = ["one", "two", "three", "four", "five"] := by
  have hlen : K.length = 5 := by
    have := hp.length_eq
    simpa using this
  have m1 : "one" ∈ K := hp.mem_iff.mpr (by decide)
  have m2 : "two" ∈ K := hp.mem_iff.mpr (by decide)
  have m3 : "three" ∈ K := hp.mem_iff.mpr (by decide)
  have m4 : "four" ∈ K := hp.mem_iff.mpr (by decide)
  have m5 : "five" ∈ K := hp.mem_iff.mpr (by decide)
  have b1 : K.indexOf "one" < 5 := hlen ▸ List.indexOf_lt_length.mpr m1
  have b2 : K.indexOf "two" < 5 := hlen ▸ List.indexOf_lt_length.mpr m2
  have b3 : K.indexOf "three" < 5 := hlen ▸ List.indexOf_lt_length.mpr m3
  have b4 : K.indexOf "four" < 5 := hlen ▸ List.indexOf_lt_length.mpr m4
  have b5 : K.indexOf "five" < 5 := hlen ▸ List.indexOf_lt_length.mpr m5
  have e1 : K.indexOf "one" = 0 := by omega
  have e2 : K.indexOf "two" = 1 := by omega
  have e3 : K.indexOf "three" = 2 := by omega
  have e4 : K.indexOf "four" = 3 := by omega
  have e5 : K.indexOf "five" = 4 := by omega
  refine List.ext_get (by simp [hlen]) ?_
  intro n hn1 hn2
  simp only [hlen] at hn1
  interval_cases n
  · have := List.indexOf_get (a := "one") (l := K) (by omega)
    simp only [e1] at this
    simpa using this
  · have := List.indexOf_get (a := "two") (l := K) (by omega)
    simp only [e2] at this
    simpa using this
  · have := List.indexOf_get (a := "three") (l := K) (by omega)
    simp only [e3] at this
    simpa using this
  · have := List.indexOf_get (a := "four") (l := K) (by omega)
    simp only [e4] at this
    simpa using this
  · have := List.indexOf_get (a := "five") (l := K) (by omega)
    simp only [e5] at this
    simpa using this

/-- C8: on the five-vertex chain — edges `two → one`, `three → two`,
`four → three`, `five → four` — `TopologicalSort` succeeds and returns
exactly `["one", "two", "three", "four", "five"]`, whatever order the
driver iterates over the vertex set: the chain admits only one valid
topological order. -/
theorem claim_C8_chain_order (order : List GraphNode)
    (hord : order.Perm (regNodes gChain5)) :
    ∃ res, topologicalSort gChain5 order = some res ∧ res.err = none ∧
      res.keys = ["one", "two", "three", "four", "five"] := by
  have hwf : WF gChain5 := by decide
  obtain ⟨res, heq, hpost⟩ := topologicalSort_spec gChain5 hwf rfl
    (fun x hx => hord.mem_iff.mp hx)
  have hcov : ∀ x ∈ regNodes gChain5, x ∈ order := fun x hx => hord.mem_iff.mpr hx
  rcases hpost with hp | hp
  · refine ⟨res, heq, hp.err_none, ?_⟩
    have hperm : res.keys.Perm ["one", "two", "three", "four", "five"] := by
      have := sortOk_perm hwf hcov hp
      simpa [vertexKeys, gChain5] using this
    have he1 := (sortOk_edge_lt hwf hcov hp "two" "one" (by decide)).2.2
    have he2 := (sortOk_edge_lt hwf hcov hp "three" "two" (by decide)).2.2
    have he3 := (sortOk_edge_lt hwf hcov hp "four" "three" (by decide)).2.2
    have he4 := (sortOk_edge_lt hwf hcov hp "five" "four" (by decide)).2.2
    exact perm5_det res.keys hperm he1 he2 he3 he4
  · obtain ⟨s, d, _, hedge, hback⟩ := hp.err_some
    exact absurd ⟨s, d, hedge, hback⟩ chain_no_cycle

/-- Witness for C8: sorting the chain in registration order. -/
theorem claim_C8_chain_order_witness :
    resChain5.keys = ["one", "two", "three", "four", "five"] := by
  obtain ⟨res, heq, _, hk⟩ := claim_C8_chain_order (regNodes gChain5) (by decide)
  have h3 : topologicalSort gChain5 (regNodes gChain5) = some resChain5 := by decide
  rw [h3] at heq
  rw [Option.some.inj heq]
  exact hk

/-! ### Claim C9 -/

theorem dfsNeighbors_topoReg (g : Graph)
    (dfsRec : GraphNode → List (GraphNode × Bool) → List (GraphNode × Bool) →
      List GraphNode → List Ev → DfsOut)
    (Hrec : ∀ nb v f t tr, nb ∈ regNodes g →
      ∀ t2, outTopo (dfsRec nb v f t tr) = some t2 → ∀ x ∈ t2, x ∈ t ∨ x ∈ regNodes g)
    (node : GraphNode) :
    ∀ ns v f t tr, (∀ nb ∈ ns, nb ∈ regNodes g) →
      ∀ t2, outTopo (dfsNeighbors dfsRec node ns v f t tr) = some t2 →
      ∀ x ∈ t2, x ∈ t ∨ x ∈ regNodes g := by
  intro ns
  induction ns with
  | nil =>
    intro v f t tr _ t2 h2 x hx
    simp only [dfsNeighbors, outTopo] at h2
    exact Or.inl ((Option.some.inj h2) ▸ hx)
  | cons nb rest ih =>
    intro v f t tr hns t2 h2 x hx
    by_cases hvt : mget v nb = some true
    · simp only [dfsNeighbors, if_pos hvt, outTopo] at h2
      exact Or.inl ((Option.some.inj h2) ▸ hx)
    · by_cases hft : (mget f nb).isSome = true
      · simp only [dfsNeighbors, if_neg hvt, if_pos hft] at h2
        exact ih v f t _ (fun y hy => hns y (List.mem_cons_of_mem _ hy)) t2 h2 x hx
      · simp only [dfsNeighbors, if_neg hvt, if_neg hft] at h2
        cases hres : dfsRec nb v f t (tr ++ [Ev.exam node.key nb.key]) with
        | outOfFuel =>
          rw [hres] at h2
          simp [outTopo] at h2
        | cycleErr s d t2' e2 =>
          rw [hres] at h2
          simp only [outTopo] at h2
          have := Hrec nb v f t _ (hns nb (List.mem_cons_self _ _)) t2'
            (by rw [hres]; rfl) x ((Option.some.inj h2) ▸ hx)
          exact this
        | ok v2 f2 t2' e2 =>
          rw [hres] at h2
          have hstep := Hrec nb v f t _ (hns nb (List.mem_cons_self _ _)) t2'
            (by rw [hres]; rfl)
          have hrest := ih v2 f2 t2' e2 (fun y hy => hns y (List.mem_cons_of_mem _ hy))
            t2 h2 x hx
          rcases hrest with h1 | h1
          · exact hstep x h1
          · exact Or.inr h1

theorem depthFirstSearch_topoReg (g : Graph) (hwf : WF g) :
    ∀ fuel node v f t tr, node ∈ regNodes g →
      ∀ t2, outTopo (depthFirstSearch g fuel node v f t tr) = some t2 →
      ∀ x ∈ t2, x ∈ t ∨ x ∈ regNodes g := by
  intro fuel
  induction fuel with
  | zero =>
    intro node v f t tr _ t2 h2
    simp [depthFirstSearch, outTopo] at h2
  | succ fuel ih =>
    intro node v f t tr hreg t2 h2 x hx
    have hloop := dfsNeighbors_topoReg g (depthFirstSearch g fuel)
      (fun nb v' f' t' tr' hnb => ih nb v' f' t' tr' hnb) node
      (neighborsOf g node.key) (mset v node true) f t (tr ++ [Ev.enter node.key])
      (fun nb hnb => hwf.neighbors_reg node.key nb hnb)
    cases hres : dfsNeighbors (depthFirstSearch g fuel) node (neighborsOf g node.key)
        (mset v node true) f t (tr ++ [Ev.enter node.key]) with
    | outOfFuel =>
      simp only [depthFirstSearch, hres, outTopo] at h2
      exact Option.noConfusion h2
    | cycleErr s d t2' e2 =>
      simp only [depthFirstSearch, hres, outTopo, Option.some.injEq] at h2
      subst h2
      exact hloop t2' (by rw [hres]; rfl) x hx
    | ok v2 f2 t2' e2 =>
      simp only [depthFirstSearch, hres, outTopo, Option.some.injEq] at h2
      rw [← h2] at hx
      rcases List.mem_append.mp hx with h1 | h1
      · exact hloop t2' (by rw [hres]; rfl) x h1
      · simp at h1
        exact Or.inr (h1 ▸ hreg)

theorem sortLoop_topoReg (g : Graph) (hwf : WF g) :
    ∀ order v f t tr, (∀ x ∈ order, x ∈ regNodes g) →
      ∀ res, sortLoop g order v f t tr = some res →
        res.graph.adjacencyList = g.adjacencyList ∧
        res.graph.vertices = g.vertices ∧
        ∀ x ∈ res.graph.topoSortedOrder, x ∈ t ∨ x ∈ regNodes g := by
  intro order
  induction order with
  | nil =>
    intro v f t tr _ res hres
    simp only [sortLoop, Option.some.injEq] at hres
    rw [← hres]
    exact ⟨rfl, rfl, fun x hx => Or.inl hx⟩
  | cons n rest ih =>
    intro v f t tr horder res hres
    by_cases hcond : ((mget v n).isSome || (mget f n).isSome) = true
    · simp only [sortLoop, if_pos hcond] at hres
      exact ih v f t tr (fun x hx => horder x (List.mem_cons_of_mem _ hx)) res hres
    · have hcondf : ((mget v n).isSome || (mget f n).isSome) = false := by
        cases h : ((mget v n).isSome || (mget f n).isSome) with
        | false => rfl
        | true => exact absurd h hcond
      cases hdfs : depthFirstSearch g (g.vertices.length + 1) n v f t tr with
      | outOfFuel =>
        simp only [sortLoop, hcondf, Bool.false_eq_true, if_false, hdfs] at hres
        exact Option.noConfusion hres
      | cycleErr s d t2 e2 =>
        simp only [sortLoop, hcondf, Bool.false_eq_true, if_false, hdfs,
          Option.some.injEq] at hres
        rw [← hres]
        refine ⟨rfl, rfl, ?_⟩
        exact depthFirstSearch_topoReg g hwf _ n v f t tr
          (horder n (List.mem_cons_self _ _)) t2 (by rw [hdfs]; rfl)
      | ok v2 f2 t2 e2 =>
        simp only [sortLoop, hcondf, Bool.false_eq_true, if_false, hdfs] at hres
        have hstep := depthFirstSearch_topoReg g hwf _ n v f t tr
          (horder n (List.mem_cons_self _ _)) t2 (by rw [hdfs]; rfl)
        obtain ⟨ha, hv, hrest⟩ := ih v2 f2 t2 e2
          (fun x hx => horder x (List.mem_cons_of_mem _ hx)) res hres
        refine ⟨ha, hv, ?_⟩
        intro x hx
        rcases hrest x hx with h1 | h1
        · exact hstep x h1
        · exact Or.inr h1

/-- C9: after any `TopologicalSort` call — successful or aborted by a cycle
error, on a graph whose previously accumulated order (empty for a freshly
built graph) holds only registered nodes — the sequences returned by
`SortedValues` and `SortedKeys` have equal length and are positionally
aligned: the values sequence is exactly the keys sequence mapped through
the payload data originally registered for each key. -/
theorem claim_C9_keys_values_aligned (g : Graph) (order : List GraphNode)
    (res : SortResult) (hwf : WF g)
    (htreg : ∀ x ∈ g.topoSortedOrder, x ∈ regNodes g)
    (horder : ∀ x ∈ order, x ∈ regNodes g)
    (hres : topologicalSort g order = some res) :
    (sortedKeys res.graph).length = (sortedValues res.graph).length ∧
    sortedValues res.graph = (sortedKeys res.graph).map
      (fun k => ((mget g.vertices k).getD (newGraphNode "" "")).data) := by
  obtain ⟨_, _, hreg⟩ := sortLoop_topoReg g hwf order [] [] g.topoSortedOrder []
    horder res hres
  have hallreg : ∀ x ∈ res.graph.topoSortedOrder, x ∈ regNodes g := by
    intro x hx
    rcases hreg x hx with h1 | h1
    · exact htreg x h1
    · exact h1
  constructor
  · simp [sortedKeys, sortedValues]
  · unfold sortedKeys sortedValues
    rw [List.map_map]
    refine List.map_congr_left ?_
    intro n hn
    have := hwf.mget_of_reg (hallreg n hn)
    simp [Function.comp, this]

/-- Witness for C9 at the one-vertex graph. -/
theorem claim_C9_keys_values_aligned_witness :
    (sortedKeys resSingle.graph).length = (sortedValues resSingle.graph).length ∧
    sortedValues resSingle.graph = (sortedKeys resSingle.graph).map
      (fun k => ((mget gSingle.vertices k).getD (newGraphNode "" "")).data) :=
  claim_C9_keys_values_aligned gSingle (regNodes gSingle) resSingle (by decide)
    (by decide) (by decide) (by decide)
